import Mathlib

/-!
# Name generator: `lib/lib.go`

A shallow embedding of the Go package `lib` (word-list lookup and name
composition) together with small models of the standard-library calls it makes
(`strings`, `path`, `fmt`, `bufio`, `embed`, `math/rand`).

* A Go `string` is modelled by its list of characters (`Str`).
* The embedded file system `nameList` (`//go:embed data/*.txt`) is a parameter:
  the list of the files of the directory `data`, in listing order, each with its
  content.
* A Go function returning `(value, error)` returns a pair whose second component
  is `none` for a `nil` error.  A function that may panic returns an `Outcome`
  or an `Option` (`none` is the panic).
* Every `newRand()` builds a fresh time-seeded generator, so the values drawn are
  an input of the model: `draws i` is the raw value behind the `i`-th draw of a
  call of `GetName`, and `Intn n` reduces it to the range `[0, n)`.
-/

namespace NameGenerator

/-- A Go string, as the list of its characters. -/
abbrev Str := List Char

/-- The error values that reach the package. -/
inductive GoError
  /-- An `*fs.PathError` wrapping `fs.ErrNotExist` (`open data/x.txt: file does not exist`). -/
  | notExist (op : Str) (path : Str)
  /-- An `*fs.PathError` of a directory that is read as a file, or a file listed as a directory. -/
  | notFile (op : Str) (path : Str)
  /-- The error `bufio.ErrTooLong` of a scanner whose line does not fit its buffer. -/
  | tooLong
  /-- An error built by `fmt.Errorf`, with its text. -/
  | errorf (msg : Str)
  deriving DecidableEq, Repr

/-- What a call of a function returning `(T, error)` does: it returns a value,
returns an error (with the zero value), or panics. -/
inductive Outcome (α : Type)
  | ok (a : α)
  | error (e : GoError)
  | panic
  deriving DecidableEq, Repr

/-! ## Constants and tables of the package -/

def dataDirName : Str := "data".toList

def dataFileSuffix : Str := ".txt".toList

def randonmNumberMin : Nat := 100000

def randonmNumberMax : Nat := 999999

/-- The map `aliases`, as its key/value pairs. -/
def aliases : List (Str × Str) :=
  [("tree".toList, "trees".toList), ("dog".toList, "dogs".toList)]

/-- The word lists read for a request: the Go type `map[string][]string`, as an
association list in which the first pair of a key is its entry. -/
abbrev Permutations := List (Str × List Str)

/-- Map assignment `perms[k] = v`. -/
def Permutations.set (perms : Permutations) (k : Str) (v : List Str) : Permutations :=
  (k, v) :: perms

/-- Map read `perms[k]`: the zero value (a nil slice) for a missing key. -/
def Permutations.get (perms : Permutations) (k : Str) : List Str :=
  (perms.lookup k).getD []

/-- The variable `nameList`: the files embedded by `data/*.txt`, as pairs of the
file name inside `data` and the file content, in the order of the directory
listing. -/
abbrev EmbedFS := List (Str × Str)

/-! ## Standard-library models -/

/-- Go `strings.HasSuffix`. -/
def strings.HasSuffix (s suffix : Str) : Bool :=
  suffix.isSuffixOf s

/-- Go `strings.TrimSuffix`: `s` without the trailing `suffix`, or `s` itself. -/
def strings.TrimSuffix (s suffix : Str) : Str :=
  if strings.HasSuffix s suffix then s.take (s.length - suffix.length) else s

/-- Go `strings.Join`. -/
def strings.Join : List Str → Str → Str
  | [], _ => []
  | [a], _ => a
  | a :: b :: rest, sep => a ++ sep ++ strings.Join (b :: rest) sep

/-- Go `strings.Replace(s, old, new, -1)` for a one-character `old`: every
occurrence of `old` becomes `new`. -/
def strings.Replace : Str → Char → Str → Str
  | [], _, _ => []
  | c :: cs, old, new =>
    if c = old then new ++ strings.Replace cs old new else c :: strings.Replace cs old new

/-- Go `fmt.Sprintf("%d", n)` for a non-negative `n`: its decimal digits. -/
def fmt.Sprintd (n : Nat) : Str :=
  Nat.toDigits 10 n

/-- Go `(*rand.Rand).Intn(n)`: panics (`none`) for `n <= 0`, otherwise a value
of `[0, n)`, here the raw draw reduced modulo `n`. -/
def rand.Intn (n : Nat) (raw : Nat) : Option Nat :=
  if n = 0 then none else some (raw % n)

/-- The inner loop of the `..` case of `path.Clean`, entered after the first
`out.w--` with the new `w`:
`for out.w > dotdot && out.index(out.w) != '/' { out.w-- }`. -/
def path.backtrack (out : Str) (dotdot : Nat) : Nat → Nat
  | 0 => 0
  | w + 1 =>
    if w + 1 > dotdot ∧ out.getD (w + 1) '/' ≠ '/' then path.backtrack out dotdot w else w + 1

/-- The main loop `for r < n` of `path.Clean`.  `rest` is `path[r:]`, `out` is
the written part `buf[:w]` of the lazy buffer, and each turn consumes at least
one character of `rest`, so `fuel = len(path)` turns are enough. -/
def path.cleanLoop (rooted : Bool) : Nat → Str → Str → Nat → Str
  | 0, _, out, _ => out
  | _ + 1, [], out, _ => out
  | fuel + 1, c :: tl, out, dotdot =>
    if c = '/' then
      path.cleanLoop rooted fuel tl out dotdot
    else if c = '.' ∧ (tl = [] ∨ tl.head? = some '/') then
      path.cleanLoop rooted fuel tl out dotdot
    else if c = '.' ∧ tl.head? = some '.' ∧ (tl.tail = [] ∨ tl.tail.head? = some '/') then
      if out.length > dotdot then
        path.cleanLoop rooted fuel tl.tail
          (out.take (path.backtrack out dotdot (out.length - 1))) dotdot
      else if !rooted then
        path.cleanLoop rooted fuel tl.tail
          ((if out.length > 0 then out ++ ['/'] else out) ++ ['.', '.'])
          ((if out.length > 0 then out ++ ['/'] else out) ++ ['.', '.']).length
      else
        path.cleanLoop rooted fuel tl.tail out dotdot
    else
      path.cleanLoop rooted fuel ((c :: tl).dropWhile (fun x => x ≠ '/'))
        ((if (rooted ∧ out.length ≠ 1) ∨ (!rooted ∧ out.length ≠ 0) then out ++ ['/'] else out)
          ++ (c :: tl).takeWhile (fun x => x ≠ '/'))
        dotdot

/-- Go `path.Clean`. -/
def path.Clean (p : Str) : Str :=
  if p = [] then ['.']
  else
    let rooted : Bool := p.head? = some '/'
    let out := path.cleanLoop rooted p.length (if rooted then p.tail else p)
      (if rooted then ['/'] else []) (if rooted then 1 else 0)
    if out.length = 0 then ['.'] else out

/-- Go `path.Join`: the non-empty elements joined by `/`, then cleaned. -/
def path.Join (elem : List Str) : Str :=
  if (elem.map List.length).sum = 0 then []
  else
    path.Clean (elem.foldl
      (fun buf e =>
        if buf.length > 0 ∨ e ≠ [] then (if buf.length > 0 then buf ++ ['/'] else buf) ++ e
        else buf) [])

/-- What a path of the embedded file system names. -/
inductive embed.Entry
  | dir
  | file (data : Str)
  deriving DecidableEq, Repr

/-- Go `embed.FS.lookup` on `nameList`: the root `.`, the directory `data` (when
it holds a file) and the files `data/<name>` exist. -/
def embed.lookup (nameList : EmbedFS) (name : Str) : Option embed.Entry :=
  if name = ['.'] then some embed.Entry.dir
  else if name = dataDirName ∧ nameList ≠ [] then some embed.Entry.dir
  else (nameList.find? (fun f => decide (dataDirName ++ '/' :: f.1 = name))).map
    (fun f => embed.Entry.file f.2)

/-- Go `embed.FS.ReadDir`: the names of the entries of a directory. -/
def embed.ReadDir (nameList : EmbedFS) (name : Str) : List Str × Option GoError :=
  match embed.lookup nameList name with
  | none => ([], some (GoError.notExist "open".toList name))
  | some (embed.Entry.file _) => ([], some (GoError.notFile "read".toList name))
  | some embed.Entry.dir =>
    if name = dataDirName then (nameList.map Prod.fst, none)
    else if nameList = [] then ([], none)
    else ([dataDirName], none)

/-- The number of bytes of a string in UTF-8. -/
def utf8Len (s : Str) : Nat :=
  (s.map Char.utf8Size).sum

/-- The default `bufio.MaxScanTokenSize`. -/
def bufio.MaxScanTokenSize : Nat := 64 * 1024

/-- The pieces of a text between its `\n` characters (one more than there are
`\n`). -/
def bufio.pieces : Str → List Str
  | [] => [[]]
  | c :: cs =>
    if c = '\n' then [] :: bufio.pieces cs
    else
      match bufio.pieces cs with
      | [] => [[c]]
      | l :: ls => (c :: l) :: ls

/-- The lines the split function `bufio.ScanLines` sees: every piece that a
`\n` ends, and the piece after the last `\n` when it is not empty. -/
def bufio.rawLines (content : Str) : List Str :=
  if (bufio.pieces content).getLast? = some [] then (bufio.pieces content).dropLast
  else bufio.pieces content

/-- Go `dropCR` of `bufio.ScanLines`: a trailing `\r` is dropped. -/
def bufio.dropCR (data : Str) : Str :=
  if data.getLast? = some '\r' then data.dropLast else data

/-- The tokens a `bufio.Scanner` with the split function `ScanLines` delivers
by `Scan`/`Text` until `Scan` returns false, and the value of `Err()` then: a
line of `MaxScanTokenSize` bytes or more fills the buffer, and scanning stops
there with `ErrTooLong`. -/
def bufio.scan : List Str → List Str × Option GoError
  | [] => ([], none)
  | l :: ls =>
    if bufio.MaxScanTokenSize ≤ utf8Len l then ([], some GoError.tooLong)
    else (bufio.dropCR l :: (bufio.scan ls).1, (bufio.scan ls).2)

/-- Go `strings.Index`: the index of the first occurrence of `sep` in `s`
(`none` for `-1`). -/
def strings.Index : Str → Str → Option Nat
  | [], sep => if sep = [] then some 0 else none
  | c :: cs, sep =>
    if sep.isPrefixOf (c :: cs) then some 0 else (strings.Index cs sep).map (fun i => i + 1)

/-- The loop of Go `strings.Count` for a non-empty `substr`; every turn drops at
least one character, so `fuel = len(s)` turns are enough. -/
def strings.countLoop (substr : Str) : Nat → Str → Nat
  | 0, _ => 0
  | fuel + 1, s =>
    match strings.Index s substr with
    | none => 0
    | some i => strings.countLoop substr fuel (s.drop (i + substr.length)) + 1

/-- Go `strings.Count`: the number of non-overlapping occurrences of `substr`. -/
def strings.Count (s substr : Str) : Nat :=
  if substr = [] then s.length + 1 else strings.countLoop substr s.length s

/-- The loop `for i < n` of Go `genSplit` (with `n` already decremented): `k` is
the number of turns left. -/
def strings.splitLoop (sep : Str) : Nat → Str → List Str
  | 0, s => [s]
  | k + 1, s =>
    match strings.Index s sep with
    | none => [s]
    | some m => s.take m :: strings.splitLoop sep k (s.drop (m + sep.length))

/-- Go `strings.Split`: the substrings of `s` between the occurrences of `sep`;
with an empty `sep`, the characters of `s`. -/
def strings.Split (s sep : Str) : List Str :=
  if sep = [] then s.map (fun c => [c])
  else strings.splitLoop sep (min (strings.Count s sep + 1) (s.length + 1) - 1) s

/-! ## The package -/

/-- Go `unAlias`: the list with every alias replaced by its real name. -/
def unAlias : List Str → List Str
  | [] => []
  | t :: ts =>
    match aliases.lookup t with
    | some real => real :: unAlias ts
    | none => t :: unAlias ts

/-- Go `contains`: whether `e` is an element of `s`. -/
def contains : List Str → Str → Bool
  | [], _ => false
  | a :: s, e => if a = e then true else contains s e

/-- Go `PossibleTypes`: the names of the files of `data`, without the suffix
`.txt`. -/
def PossibleTypes (nameList : EmbedFS) : List Str × Option GoError :=
  match embed.ReadDir nameList dataDirName with
  | (_, some err) => ([], some err)
  | (files, none) => (files.map (fun n => strings.TrimSuffix n dataFileSuffix), none)

/-- The loop of `CheckType` over the alias-resolved types. -/
def CheckType.loop (allTypes : List Str) : List Str → Option GoError
  | [] => none
  | t :: ts =>
    if !contains allTypes t then
      some (GoError.errorf ("type `".toList ++ t ++ "` is not valid. Possible values are: `".toList
        ++ strings.Join allTypes "`, `".toList ++ "`".toList))
    else CheckType.loop allTypes ts

/-- Go `CheckType`: `none` is the `nil` error. -/
def CheckType (nameList : EmbedFS) (types : List Str) : Option GoError :=
  match PossibleTypes nameList with
  | (_, some err) => some err
  | (allTypes, none) => CheckType.loop allTypes (unAlias types)

/-- Go `ran`: a random index below `max`; panics for `max = 0`. -/
def ran (max : Nat) (raw : Nat) : Option Nat :=
  rand.Intn max raw

/-- Go `randomNumber`. -/
def randomNumber (raw : Nat) : Option Nat :=
  (rand.Intn (randonmNumberMax - randonmNumberMin) raw).map (fun r => r + randonmNumberMin)

/-- Go `readLines`: the lines of the file `data/<name>`, and the error. -/
def readLines (nameList : EmbedFS) (name : Str) : List Str × Option GoError :=
  match embed.lookup nameList (path.Join [dataDirName, name]) with
  | none => ([], some (GoError.notExist "open".toList (path.Join [dataDirName, name])))
  | some embed.Entry.dir =>
    ([], some (GoError.notFile "read".toList (path.Join [dataDirName, name])))
  | some (embed.Entry.file data) => bufio.scan (bufio.rawLines data)

/-- The loop of `readData`, from the map `perms` built so far. -/
def readData.loop (nameList : EmbedFS) : List Str → Permutations → Permutations × Option GoError
  | [], perms => (perms, none)
  | asset :: rest, perms =>
    match readLines nameList (asset ++ dataFileSuffix) with
    | (_, some err) => (perms, some err)
    | (data, none) => readData.loop nameList rest (perms.set asset data)

/-- Go `readData`. -/
def readData (nameList : EmbedFS) (types : List Str) : Permutations × Option GoError :=
  readData.loop nameList types []

/-- The loop of `GetName` over the types: `i` counts the draws made so far and
`name` is the slice built so far.  A zero bound of `ran` and an index out of
range panic. -/
def GetName.loop (perms : Permutations) (separator : Str) (draws : Nat → Nat) :
    List Str → Nat → List Str → Option (List Str)
  | [], _, name => some name
  | t :: ts, i, name =>
    match ran (perms.get t).length (draws i) with
    | none => none
    | some k =>
      match (perms.get t)[k]? with
      | none => none
      | some word =>
        GetName.loop perms separator draws ts (i + 1)
          (name ++ [strings.Replace word ' ' separator])

/-- Go `GetName`.  The draws of the loop are `draws 0`, `draws 1`, ...; the draw
of `randomNumber` comes after them. -/
def GetName (nameList : EmbedFS) (types : List Str) (separator : Str) (randomNumer : Bool)
    (draws : Nat → Nat) : Outcome Str :=
  match readData nameList (unAlias types) with
  | (_, some err) => Outcome.error err
  | (perms, none) =>
    match GetName.loop perms separator draws (unAlias types) 0 [] with
    | none => Outcome.panic
    | some name =>
      if randomNumer then
        match randomNumber (draws (unAlias types).length) with
        | none => Outcome.panic
        | some n => Outcome.ok (strings.Join (name ++ [fmt.Sprintd n]) separator)
      else Outcome.ok (strings.Join name separator)

/-! ## Resource sets used in examples, and the substitution of `unAlias` -/

/-- A resource set with the word lists `colour` and `dogs`. -/
def sampleFS : EmbedFS :=
  [("colour.txt".toList, "red\nblue\n".toList),
   ("dogs.txt".toList, "dogs one\ndogs two\n".toList)]

/-- The resource set of the scenario of the specification: `colour.txt` and
`dog.txt`. -/
def scenarioFS : EmbedFS :=
  [("colour.txt".toList, "red\nblue\n".toList),
   ("dog.txt".toList, "dogs one\ndogs two\n".toList)]

/-- A resource set whose only word list is `trees`. -/
def treesFS : EmbedFS := [("trees.txt".toList, "oak\nelm\n".toList)]

/-- A resource set whose words hold no space. -/
def plainFS : EmbedFS :=
  [("colour.txt".toList, "red\nblue\n".toList), ("dogs.txt".toList, "pug\nlab\n".toList)]

/-- A resource set with an empty word list. -/
def emptyListFS : EmbedFS :=
  [("colour.txt".toList, "red\nblue\n".toList), ("blank.txt".toList, [])]

/-- A resource set whose word list `big` is one line of 65536 characters `a`. -/
def bigLineFS : EmbedFS := [("big.txt".toList, List.replicate 65536 'a')]

/-- A resource set whose word list `words` is the line `ok` followed by a line
of 65536 characters `a`. -/
def longTailFS : EmbedFS := [("words.txt".toList, 'o' :: 'k' :: '\n' :: List.replicate 65536 'a')]

/-- A resource set with the empty word list `blank` and the word list `big` of
one line of 65536 characters `a`. -/
def blankBigFS : EmbedFS :=
  [("blank.txt".toList, []), ("big.txt".toList, List.replicate 65536 'a')]

/-- The substitution `unAlias` applies to one type. -/
def realName (t : Str) : Str :=
  if t = "tree".toList then "trees".toList else if t = "dog".toList then "dogs".toList else t

/-! ## Lemmas: aliases and validation -/

theorem aliases_lookup (t : Str) :
    aliases.lookup t =
      if t = "tree".toList then some "trees".toList
      else if t = "dog".toList then some "dogs".toList else none := by
  by_cases h1 : t = "tree".toList
  · subst h1; rfl
  · by_cases h2 : t = "dog".toList
    · subst h2; rfl
    · have e1 : (t == "tree".toList) = false := by simpa using h1
      have e2 : (t == "dog".toList) = false := by simpa using h2
      rw [if_neg h1, if_neg h2]
      simp only [aliases, List.lookup, e1, e2]

theorem unAlias_eq_map (types : List Str) : unAlias types = types.map realName := by
  induction types with
  | nil => rfl
  | cons t ts ih =>
    simp only [unAlias, aliases_lookup, List.map_cons, realName]
    by_cases h1 : t = "tree".toList
    · rw [if_pos h1, if_pos h1, ih]
    · by_cases h2 : t = "dog".toList
      · rw [if_neg h1, if_pos h2, if_neg h1, if_pos h2, ih]
      · rw [if_neg h1, if_neg h2, if_neg h1, if_neg h2, ih]

theorem realName_idem (t : Str) : realName (realName t) = realName t := by
  by_cases h1 : t = "tree".toList
  · subst h1; decide
  · by_cases h2 : t = "dog".toList
    · subst h2; decide
    · have : realName t = t := by unfold realName; rw [if_neg h1, if_neg h2]
      rw [this, this]

theorem unAlias_length (types : List Str) : (unAlias types).length = types.length := by
  rw [unAlias_eq_map, List.length_map]

theorem contains_iff (s : List Str) (e : Str) : contains s e = true ↔ e ∈ s := by
  induction s with
  | nil => simp [contains]
  | cons a s ih =>
    unfold contains
    by_cases h : a = e
    · simp [h]
    · rw [if_neg h, ih]
      constructor
      · intro h1; exact List.mem_cons_of_mem _ h1
      · intro h1
        rcases List.mem_cons.mp h1 with h2 | h2
        · exact absurd h2.symm h
        · exact h2

theorem TrimSuffix_append (t suffix : Str) : strings.TrimSuffix (t ++ suffix) suffix = t := by
  have h : strings.HasSuffix (t ++ suffix) suffix = true := by
    unfold strings.HasSuffix
    rw [List.isSuffixOf_iff_suffix]
    exact List.suffix_append t suffix
  unfold strings.TrimSuffix
  rw [if_pos h]
  simp

theorem HasSuffix_iff (s suffix : Str) :
    strings.HasSuffix s suffix = true ↔ ∃ t, s = t ++ suffix := by
  unfold strings.HasSuffix
  rw [List.isSuffixOf_iff_suffix]
  constructor
  · rintro ⟨t, rfl⟩; exact ⟨t, rfl⟩
  · rintro ⟨t, rfl⟩; exact ⟨t, rfl⟩

theorem lookup_dataDir (nameList : EmbedFS) (h : nameList ≠ []) :
    embed.lookup nameList dataDirName = some embed.Entry.dir := by
  unfold embed.lookup
  rw [if_neg (by decide), if_pos ⟨rfl, h⟩]

theorem PossibleTypes_of_ne_nil (nameList : EmbedFS) (h : nameList ≠ []) :
    PossibleTypes nameList =
      (nameList.map (fun f => strings.TrimSuffix f.1 dataFileSuffix), none) := by
  unfold PossibleTypes embed.ReadDir
  rw [lookup_dataDir nameList h]
  simp [List.map_map, Function.comp_def]

theorem PossibleTypes_nil :
    PossibleTypes [] = ([], some (GoError.notExist "open".toList dataDirName)) := by
  decide

theorem PossibleTypes_ok (nameList : EmbedFS) (h : (PossibleTypes nameList).2 = none) :
    PossibleTypes nameList =
      (nameList.map (fun f => strings.TrimSuffix f.1 dataFileSuffix), none) := by
  cases nameList with
  | nil => rw [PossibleTypes_nil] at h; exact absurd h (by simp)
  | cons f fs => exact PossibleTypes_of_ne_nil _ (by simp)

theorem CheckType_loop_none_iff (allTypes ts : List Str) :
    CheckType.loop allTypes ts = none ↔ ∀ t ∈ ts, t ∈ allTypes := by
  induction ts with
  | nil => simp [CheckType.loop]
  | cons t ts ih =>
    unfold CheckType.loop
    by_cases h : contains allTypes t = true
    · have ht := (contains_iff allTypes t).mp h
      simp [h, ih, ht]
    · have ht : t ∉ allTypes := fun hm => h ((contains_iff allTypes t).mpr hm)
      simp [h, ht]

theorem CheckType_of_ok (nameList : EmbedFS) (types : List Str)
    (h : (PossibleTypes nameList).2 = none) :
    CheckType nameList types = CheckType.loop (PossibleTypes nameList).1 (unAlias types) := by
  unfold CheckType
  rw [PossibleTypes_ok nameList h]

/-! ## Lemmas: reading the word lists and composing the name -/

theorem Permutations_get_set (perms : Permutations) (k t : Str) (v : List Str) :
    (perms.set t v).get k = if k = t then v else perms.get k := by
  unfold Permutations.set Permutations.get
  by_cases h : k = t
  · subst h
    simp [List.lookup]
  · have e : (k == t) = false := by simpa using h
    rw [if_neg h]
    simp only [List.lookup, e]

theorem readData_loop_ok (nameList : EmbedFS) (ts : List Str) (perms : Permutations)
    (h : ∀ t ∈ ts, (readLines nameList (t ++ dataFileSuffix)).2 = none) :
    ∃ p, readData.loop nameList ts perms = (p, none) ∧
      ∀ k, p.get k =
        if k ∈ ts then (readLines nameList (k ++ dataFileSuffix)).1 else perms.get k := by
  induction ts generalizing perms with
  | nil => exact ⟨perms, rfl, fun k => by simp⟩
  | cons t rest ih =>
    have ht := h t (List.mem_cons_self t rest)
    obtain ⟨p, hp, hget⟩ := ih (perms.set t (readLines nameList (t ++ dataFileSuffix)).1)
      (fun u hu => h u (List.mem_cons_of_mem t hu))
    refine ⟨p, ?_, ?_⟩
    · unfold readData.loop
      rcases hrl : readLines nameList (t ++ dataFileSuffix) with ⟨data, err⟩
      rw [hrl] at ht hp
      simp only at ht
      subst ht
      exact hp
    · intro k
      rw [hget k, Permutations_get_set]
      by_cases hk : k ∈ rest
      · simp [hk]
      · by_cases hkt : k = t
        · subst hkt; simp
        · simp [hk, hkt]

theorem readData_loop_err (nameList : EmbedFS) (ts : List Str) (perms : Permutations)
    (h : ∃ t ∈ ts, (readLines nameList (t ++ dataFileSuffix)).2 ≠ none) :
    ∃ p e, readData.loop nameList ts perms = (p, some e) := by
  induction ts generalizing perms with
  | nil => obtain ⟨t, ht, _⟩ := h; exact absurd ht (List.not_mem_nil t)
  | cons t rest ih =>
    unfold readData.loop
    rcases hrl : readLines nameList (t ++ dataFileSuffix) with ⟨data, err⟩
    cases err with
    | some e => exact ⟨perms, e, rfl⟩
    | none =>
      obtain ⟨u, hu, hne⟩ := h
      rcases List.mem_cons.mp hu with rfl | hu2
      · rw [hrl] at hne; exact absurd rfl hne
      · exact ih _ ⟨u, hu2, hne⟩

theorem GetName_loop_some (perms : Permutations) (separator : Str) (draws : Nat → Nat)
    (ts : List Str) (i : Nat) (name : List Str) (h : ∀ t ∈ ts, perms.get t ≠ []) :
    ∃ words : List Str, List.Forall₂ (fun w t => w ∈ perms.get t) words ts ∧
      GetName.loop perms separator draws ts i name =
        some (name ++ words.map (fun w => strings.Replace w ' ' separator)) := by
  induction ts generalizing i name with
  | nil => exact ⟨[], List.Forall₂.nil, by simp [GetName.loop]⟩
  | cons t rest ih =>
    have hne : (perms.get t).length ≠ 0 := by
      intro h0
      exact h t (List.mem_cons_self t rest) (List.length_eq_zero.mp h0)
    have hlt : draws i % (perms.get t).length < (perms.get t).length :=
      Nat.mod_lt _ (Nat.pos_of_ne_zero hne)
    obtain ⟨words, hw, hl⟩ := ih (i + 1)
      (name ++ [strings.Replace ((perms.get t)[draws i % (perms.get t).length]) ' ' separator])
      (fun u hu => h u (List.mem_cons_of_mem t hu))
    refine ⟨(perms.get t)[draws i % (perms.get t).length] :: words,
      List.Forall₂.cons (List.getElem_mem _) hw, ?_⟩
    unfold GetName.loop
    simp only [ran, rand.Intn, if_neg hne, List.getElem?_eq_getElem hlt]
    rw [hl]
    simp

theorem GetName_loop_length (perms : Permutations) (separator : Str) (draws : Nat → Nat)
    (ts : List Str) (i : Nat) (name res : List Str)
    (h : GetName.loop perms separator draws ts i name = some res) :
    ∃ toks : List Str, res = name ++ toks ∧ toks.length = ts.length := by
  induction ts generalizing i name with
  | nil =>
    simp only [GetName.loop, Option.some.injEq] at h
    exact ⟨[], by simp [h], rfl⟩
  | cons t rest ih =>
    unfold GetName.loop at h
    cases hr : ran (perms.get t).length (draws i) with
    | none => rw [hr] at h; exact absurd h (by simp)
    | some k =>
      rw [hr] at h
      simp only at h
      cases hw : (perms.get t)[k]? with
      | none => rw [hw] at h; exact absurd h (by simp)
      | some word =>
        rw [hw] at h
        obtain ⟨toks, he, hlen⟩ := ih _ _ h
        exact ⟨strings.Replace word ' ' separator :: toks, by simp [he], by simp [hlen]⟩

theorem randomNumber_eq (raw : Nat) : randomNumber raw = some (raw % 899999 + 100000) := by
  simp [randomNumber, rand.Intn, randonmNumberMax, randonmNumberMin]

theorem GetName_ok_words (nameList : EmbedFS) (types : List Str) (separator : Str)
    (randomNumer : Bool) (draws : Nat → Nat)
    (h : ∀ t ∈ unAlias types, (readLines nameList (t ++ dataFileSuffix)).2 = none ∧
      (readLines nameList (t ++ dataFileSuffix)).1 ≠ []) :
    ∃ words : List Str, words.length = types.length ∧
      (∀ w ∈ words, ∃ t ∈ unAlias types, w ∈ (readLines nameList (t ++ dataFileSuffix)).1) ∧
      GetName nameList types separator randomNumer draws =
        Outcome.ok (strings.Join
          (words.map (fun word => strings.Replace word ' ' separator) ++
            (if randomNumer = true
              then [fmt.Sprintd (draws (unAlias types).length % 899999 + 100000)]
              else [])) separator) := by
  obtain ⟨p, hp, hget⟩ := readData_loop_ok nameList (unAlias types) [] (fun t ht => (h t ht).1)
  have hne : ∀ t ∈ unAlias types, p.get t ≠ [] := by
    intro t ht
    rw [hget t, if_pos ht]
    exact (h t ht).2
  obtain ⟨words, hw, hl⟩ := GetName_loop_some p separator draws (unAlias types) 0 [] hne
  refine ⟨words, ?_, ?_, ?_⟩
  · rw [List.Forall₂.length_eq hw, unAlias_length]
  · intro w hwmem
    obtain ⟨i, hi, rfl⟩ := List.getElem_of_mem hwmem
    have hi2 : i < (unAlias types).length := by rw [← List.Forall₂.length_eq hw]; exact hi
    have hz : (words[i], (unAlias types)[i]) ∈ words.zip (unAlias types) := by
      rw [List.mem_iff_getElem]
      exact ⟨i, by simp [hi, hi2], by simp⟩
    refine ⟨(unAlias types)[i], List.getElem_mem hi2, ?_⟩
    have hm := (List.forall₂_iff_zip.mp hw).2 hz
    rw [hget _, if_pos (List.getElem_mem hi2)] at hm
    exact hm
  · unfold GetName readData
    rw [hp]
    simp only [hl, randomNumber_eq, List.nil_append]
    cases randomNumer <;> simp

/-! ## Lemmas: the resource path -/

theorem cleanLoop_element (fuel : Nat) (name out : Str) (dotdot : Nat)
    (hno : '/' ∉ name) (hlen : 3 ≤ name.length) (hout : out ≠ []) :
    path.cleanLoop false (fuel + 2) name out dotdot = out ++ '/' :: name := by
  match name, hlen, hno with
  | c :: d :: e :: tl, _, hno =>
    have hc : c ≠ '/' := fun h => hno (by simp [h])
    have hd : d ≠ '/' := fun h => hno (by simp [h])
    have he : e ≠ '/' := fun h => hno (by simp [h])
    have hall : ∀ x ∈ c :: d :: e :: tl, x ≠ '/' := fun x hx h => hno (h ▸ hx)
    have htake : (c :: d :: e :: tl).takeWhile (fun x => decide (x ≠ '/')) = c :: d :: e :: tl := by
      rw [List.takeWhile_eq_self_iff]
      intro x hx
      simpa using hall x hx
    have hdrop : (c :: d :: e :: tl).dropWhile (fun x => decide (x ≠ '/')) = [] := by
      rw [List.dropWhile_eq_nil_iff]
      intro x hx
      simpa using hall x hx
    have hol : out.length ≠ 0 := fun h => hout (List.length_eq_zero.mp h)
    rw [path.cleanLoop]
    rw [if_neg hc, if_neg (by simp [hd]), if_neg (by simp [he]), htake, hdrop]
    simp [hol, path.cleanLoop]

theorem path_Join_data (t : Str) (hno : '/' ∉ t) :
    path.Join [dataDirName, t ++ dataFileSuffix] = dataDirName ++ '/' :: (t ++ dataFileSuffix) := by
  have hno2 : '/' ∉ t ++ dataFileSuffix := by
    intro h
    rcases List.mem_append.mp h with h | h
    · exact hno h
    · revert h; decide
  have hlen : 3 ≤ (t ++ dataFileSuffix).length := by
    rw [List.length_append]
    have : dataFileSuffix.length = 4 := rfl
    omega
  generalize t ++ dataFileSuffix = name at hno2 hlen
  have hjoin : path.Join [dataDirName, name] = path.Clean ('d' :: 'a' :: 't' :: 'a' :: '/' :: name) := by
    simp [path.Join, dataDirName]
  rw [hjoin]
  have hfuel : ('d' :: 'a' :: 't' :: 'a' :: '/' :: name).length = (name.length + 1) + 2 + 1 + 1 := by
    simp
  unfold path.Clean
  simp only [hfuel]
  simp only [List.head?_cons, Option.some.injEq, Char.reduceEq, decide_False, reduceCtorEq,
    if_false, Bool.false_eq_true]
  rw [path.cleanLoop]
  simp only [Char.reduceEq, if_false, false_and]
  simp only [List.dropWhile, List.takeWhile, ne_eq, Char.reduceEq, not_false_eq_true,
    decide_True, not_true_eq_false, decide_False]
  rw [path.cleanLoop]
  simp only [if_true]
  rw [cleanLoop_element _ _ _ _ hno2 hlen (by simp)]
  simp [dataDirName]

theorem lookup_data_file_none (nameList : EmbedFS) (name : Str)
    (h : name ∉ nameList.map Prod.fst) :
    embed.lookup nameList (dataDirName ++ '/' :: name) = none := by
  unfold embed.lookup
  have h1 : dataDirName ++ '/' :: name ≠ ['.'] := by
    intro he
    have := congrArg List.length he
    simp [dataDirName] at this
  have h2 : ¬ (dataDirName ++ '/' :: name = dataDirName ∧ nameList ≠ []) := by
    rintro ⟨he, _⟩
    have := congrArg List.length he
    simp at this
  rw [if_neg h1, if_neg h2]
  have : nameList.find? (fun f => decide (dataDirName ++ '/' :: f.1 = dataDirName ++ '/' :: name))
      = none := by
    rw [List.find?_eq_none]
    intro f hf
    simp only [List.append_cancel_left_eq, List.cons.injEq, true_and, decide_eq_true_eq]
    intro he
    exact h (List.mem_map.mpr ⟨f, hf, he⟩)
  rw [this]
  rfl

theorem readLines_unknown (nameList : EmbedFS) (t : Str) (hslash : '/' ∉ t)
    (hnot : t ∉ (PossibleTypes nameList).1) :
    (readLines nameList (t ++ dataFileSuffix)).2 ≠ none := by
  have hmem : t ++ dataFileSuffix ∉ nameList.map Prod.fst := by
    intro hm
    obtain ⟨f, hf, hft⟩ := List.mem_map.mp hm
    apply hnot
    rw [PossibleTypes_of_ne_nil nameList (List.ne_nil_of_mem hf)]
    exact List.mem_map.mpr ⟨f, hf, by rw [hft, TrimSuffix_append]⟩
  unfold readLines
  rw [path_Join_data t hslash, lookup_data_file_none nameList _ hmem]
  simp

/-! ## Lemmas: splitting a joined name -/

theorem Replace_of_not_mem (w : Str) (old : Char) (new : Str) (h : old ∉ w) :
    strings.Replace w old new = w := by
  induction w with
  | nil => rfl
  | cons x xs ih =>
    have hx : x ≠ old := fun he => h (by simp [he])
    have hxs : old ∉ xs := fun hm => h (List.mem_cons_of_mem x hm)
    rw [strings.Replace, if_neg hx, ih hxs]

theorem Index_none_of_not_mem (c : Char) (sep s : Str) (h : c ∉ s) :
    strings.Index s (c :: sep) = none := by
  induction s with
  | nil => simp [strings.Index]
  | cons x xs ih =>
    have hx : (c == x) = false := by
      simp only [beq_eq_false_iff_ne, ne_eq]
      intro he
      exact h (by simp [he])
    have hxs : c ∉ xs := fun hm => h (List.mem_cons_of_mem x hm)
    simp [strings.Index, List.isPrefixOf, hx, ih hxs]

theorem Index_append_sep (c : Char) (sep t rest : Str) (h : c ∉ t) :
    strings.Index (t ++ (c :: sep) ++ rest) (c :: sep) = some t.length := by
  induction t with
  | nil =>
    have hp : (c :: sep).isPrefixOf (c :: (sep ++ rest)) = true := by
      rw [List.isPrefixOf_iff_prefix]
      exact List.prefix_append (c :: sep) rest
    show strings.Index (c :: (sep ++ rest)) (c :: sep) = some 0
    rw [strings.Index, if_pos hp]
  | cons x xs ih =>
    have hx : (c == x) = false := by
      simp only [beq_eq_false_iff_ne, ne_eq]
      intro he
      exact h (by simp [he])
    have hxs : c ∉ xs := fun hm => h (List.mem_cons_of_mem x hm)
    have := ih hxs
    simp only [List.append_assoc, List.cons_append] at this ⊢
    simp [strings.Index, List.isPrefixOf, hx, this]

theorem Join_cons_cons (a b : Str) (rest : List Str) (sep : Str) :
    strings.Join (a :: b :: rest) sep = a ++ sep ++ strings.Join (b :: rest) sep := rfl

theorem countLoop_Join (c : Char) (sep : Str) (toks : List Str) (fuel : Nat)
    (hne : toks ≠ []) (hfuel : toks.length - 1 ≤ fuel) (h : ∀ t ∈ toks, c ∉ t) :
    strings.countLoop (c :: sep) fuel (strings.Join toks (c :: sep)) = toks.length - 1 := by
  induction toks generalizing fuel with
  | nil => exact absurd rfl hne
  | cons a rest ih =>
    cases rest with
    | nil =>
      cases fuel with
      | zero => rfl
      | succ f =>
        simp [strings.countLoop, strings.Join, Index_none_of_not_mem c sep a (h a (by simp))]
    | cons b rest =>
      cases fuel with
      | zero => simp at hfuel
      | succ f =>
        rw [Join_cons_cons, strings.countLoop, Index_append_sep c sep a _ (h a (by simp))]
        have hd : (a ++ (c :: sep) ++ strings.Join (b :: rest) (c :: sep)).drop
            (a.length + (c :: sep).length) = strings.Join (b :: rest) (c :: sep) := by
          rw [← List.length_append, List.drop_left]
        simp only [hd]
        rw [ih f (by simp) (by simpa using hfuel) (fun t ht => h t (List.mem_cons_of_mem a ht))]
        simp

theorem splitLoop_Join (c : Char) (sep : Str) (toks : List Str) (k : Nat)
    (hne : toks ≠ []) (hk : toks.length - 1 ≤ k) (h : ∀ t ∈ toks, c ∉ t) :
    strings.splitLoop (c :: sep) k (strings.Join toks (c :: sep)) = toks := by
  induction toks generalizing k with
  | nil => exact absurd rfl hne
  | cons a rest ih =>
    cases rest with
    | nil =>
      cases k with
      | zero => rfl
      | succ f =>
        simp [strings.splitLoop, strings.Join, Index_none_of_not_mem c sep a (h a (by simp))]
    | cons b rest =>
      cases k with
      | zero => simp at hk
      | succ f =>
        rw [Join_cons_cons, strings.splitLoop, Index_append_sep c sep a _ (h a (by simp))]
        have hd : (a ++ (c :: sep) ++ strings.Join (b :: rest) (c :: sep)).drop
            (a.length + (c :: sep).length) = strings.Join (b :: rest) (c :: sep) := by
          rw [← List.length_append, List.drop_left]
        have ht : (a ++ (c :: sep) ++ strings.Join (b :: rest) (c :: sep)).take a.length = a := by
          rw [List.append_assoc, List.take_left]
        simp only [hd, ht]
        rw [ih f (by simp) (by simpa using hk) (fun t ht => h t (List.mem_cons_of_mem a ht))]

theorem Join_length_ge (c : Char) (sep : Str) (toks : List Str) :
    toks.length - 1 ≤ (strings.Join toks (c :: sep)).length := by
  induction toks with
  | nil => simp
  | cons a rest ih =>
    cases rest with
    | nil => simp
    | cons b rest =>
      rw [Join_cons_cons]
      simp only [List.length_append, List.length_cons] at ih ⊢
      omega

theorem Split_Join (c : Char) (sep : Str) (toks : List Str)
    (hne : toks ≠ []) (h : ∀ t ∈ toks, c ∉ t) :
    strings.Split (strings.Join toks (c :: sep)) (c :: sep) = toks := by
  unfold strings.Split strings.Count
  rw [if_neg (by simp), if_neg (by simp)]
  apply splitLoop_Join c sep toks _ hne _ h
  rw [countLoop_Join c sep toks _ hne (Join_length_ge c sep toks) h]
  have := Join_length_ge c sep toks
  omega

theorem toDigitsCore_digits (fuel n : Nat) (ds : List Char)
    (h : ∀ ch ∈ ds, ch ∈ "0123456789".toList) :
    ∀ ch ∈ Nat.toDigitsCore 10 fuel n ds, ch ∈ "0123456789".toList := by
  induction fuel generalizing n ds with
  | zero => simpa [Nat.toDigitsCore] using h
  | succ f ih =>
    have hd : (n % 10).digitChar ∈ "0123456789".toList := by
      have hlt : n % 10 < 10 := Nat.mod_lt _ (by decide)
      generalize n % 10 = m at hlt
      interval_cases m <;> decide
    have hcons : ∀ ch ∈ (n % 10).digitChar :: ds, ch ∈ "0123456789".toList := by
      intro ch hch
      rcases List.mem_cons.mp hch with rfl | hm
      · exact hd
      · exact h ch hm
    unfold Nat.toDigitsCore
    by_cases h0 : n / 10 = 0
    · simp only [h0, if_true]
      exact hcons
    · simp only [h0, if_false]
      exact ih _ _ hcons

theorem Sprintd_digits (n : Nat) : ∀ ch ∈ fmt.Sprintd n, ch ∈ "0123456789".toList :=
  toDigitsCore_digits _ _ [] (by simp)

/-! ## Lemmas: the digits of the number, panics, spaces -/

theorem toDigitsCore_six (fuel n : Nat) (h1 : 100000 ≤ n) (h2 : n < 1000000) :
    Nat.toDigitsCore 10 (fuel + 6) n [] =
      [(n / 100000 % 10).digitChar, (n / 10000 % 10).digitChar, (n / 1000 % 10).digitChar,
       (n / 100 % 10).digitChar, (n / 10 % 10).digitChar, (n % 10).digitChar] := by
  have e1 : n / 10 ≠ 0 := by omega
  have e2 : n / 10 / 10 ≠ 0 := by omega
  have e3 : n / 10 / 10 / 10 ≠ 0 := by omega
  have e4 : n / 10 / 10 / 10 / 10 ≠ 0 := by omega
  have e5 : n / 10 / 10 / 10 / 10 / 10 ≠ 0 := by omega
  have e6 : n / 10 / 10 / 10 / 10 / 10 / 10 = 0 := by omega
  have d2 : n / 10 / 10 = n / 100 := by omega
  have d3 : n / 10 / 10 / 10 = n / 1000 := by omega
  have d4 : n / 10 / 10 / 10 / 10 = n / 10000 := by omega
  have d5 : n / 10 / 10 / 10 / 10 / 10 = n / 100000 := by omega
  simp only [Nat.toDigitsCore, e1, e2, e3, e4, e5, e6, if_true, if_false]
  rw [d5, d4, d3, d2]

theorem Sprintd_length_six (n : Nat) (h1 : 100000 ≤ n) (h2 : n < 1000000) :
    (fmt.Sprintd n).length = 6 := by
  unfold fmt.Sprintd Nat.toDigits
  have : n + 1 = (n - 5) + 6 := by omega
  rw [this, toDigitsCore_six _ n h1 h2]
  rfl

theorem GetName_nil (nameList : EmbedFS) (separator : Str) (randomNumer : Bool)
    (draws : Nat → Nat) :
    GetName nameList [] separator randomNumer draws =
      if randomNumer = true then Outcome.ok (fmt.Sprintd (draws 0 % 899999 + 100000))
      else Outcome.ok [] := by
  cases randomNumer <;>
    simp [GetName, unAlias, readData, readData.loop, GetName.loop, randomNumber_eq, strings.Join]

theorem GetName_loop_none (perms : Permutations) (separator : Str) (draws : Nat → Nat)
    (ts : List Str) (i : Nat) (name : List Str) (h : ∃ t ∈ ts, perms.get t = []) :
    GetName.loop perms separator draws ts i name = none := by
  induction ts generalizing i name with
  | nil => obtain ⟨t, ht, _⟩ := h; exact absurd ht (List.not_mem_nil t)
  | cons u rest ih =>
    unfold GetName.loop
    by_cases hu : perms.get u = []
    · simp [hu, ran, rand.Intn]
    · have hrest : ∃ t ∈ rest, perms.get t = [] := by
        obtain ⟨t, ht, he⟩ := h
        rcases List.mem_cons.mp ht with rfl | ht2
        · exact absurd he hu
        · exact ⟨t, ht2, he⟩
      have hne : (perms.get u).length ≠ 0 := fun h0 => hu (List.length_eq_zero.mp h0)
      have hlt : draws i % (perms.get u).length < (perms.get u).length :=
        Nat.mod_lt _ (Nat.pos_of_ne_zero hne)
      simp only [ran, rand.Intn, if_neg hne, List.getElem?_eq_getElem hlt]
      exact ih _ _ hrest

theorem GetName_of_readData_err (nameList : EmbedFS) (types : List Str) (separator : Str)
    (randomNumer : Bool) (draws : Nat → Nat)
    (h : ∃ t ∈ unAlias types, (readLines nameList (t ++ dataFileSuffix)).2 ≠ none) :
    ∃ e : GoError, GetName nameList types separator randomNumer draws = Outcome.error e := by
  obtain ⟨p, e, hp⟩ := readData_loop_err nameList (unAlias types) [] h
  refine ⟨e, ?_⟩
  unfold GetName readData
  rw [hp]

theorem GetName_panic_of_empty (nameList : EmbedFS) (types : List Str) (separator : Str)
    (randomNumer : Bool) (draws : Nat → Nat)
    (hload : ∀ t ∈ unAlias types, (readLines nameList (t ++ dataFileSuffix)).2 = none)
    (hempty : ∃ t ∈ unAlias types, (readLines nameList (t ++ dataFileSuffix)).1 = []) :
    GetName nameList types separator randomNumer draws = Outcome.panic := by
  obtain ⟨p, hp, hget⟩ := readData_loop_ok nameList (unAlias types) [] hload
  have hl : GetName.loop p separator draws (unAlias types) 0 [] = none := by
    apply GetName_loop_none
    obtain ⟨t, ht, he⟩ := hempty
    exact ⟨t, ht, by rw [hget t, if_pos ht, he]⟩
  unfold GetName readData
  rw [hp]
  simp only [hl]

theorem Replace_no_old (w : Str) (old : Char) (new : Str) (h : old ∉ new) :
    old ∉ strings.Replace w old new := by
  induction w with
  | nil => simp [strings.Replace]
  | cons x xs ih =>
    unfold strings.Replace
    by_cases hx : x = old
    · rw [if_pos hx]
      intro hm
      rcases List.mem_append.mp hm with h1 | h1
      · exact h h1
      · exact ih h1
    · rw [if_neg hx]
      intro hm
      rcases List.mem_cons.mp hm with h1 | h1
      · exact hx h1.symm
      · exact ih h1

theorem Join_not_mem (ch : Char) (toks : List Str) (sep : Str)
    (hsep : ch ∉ sep) (htoks : ∀ t ∈ toks, ch ∉ t) : ch ∉ strings.Join toks sep := by
  induction toks with
  | nil => simp [strings.Join]
  | cons a rest ih =>
    cases rest with
    | nil => simpa [strings.Join] using htoks a (by simp)
    | cons b rest =>
      rw [Join_cons_cons]
      intro hm
      rcases List.mem_append.mp hm with h1 | h1
      · rcases List.mem_append.mp h1 with h2 | h2
        · exact htoks a (by simp) h2
        · exact hsep h2
      · exact ih (fun t ht => htoks t (List.mem_cons_of_mem a ht)) h1

theorem GetName_loop_tokens (perms : Permutations) (separator : Str) (draws : Nat → Nat)
    (ts : List Str) (i : Nat) (name res : List Str)
    (h : GetName.loop perms separator draws ts i name = some res) :
    ∀ tok ∈ res, tok ∈ name ∨ ∃ word : Str, tok = strings.Replace word ' ' separator := by
  induction ts generalizing i name with
  | nil =>
    simp only [GetName.loop, Option.some.injEq] at h
    subst h
    exact fun tok ht => Or.inl ht
  | cons t rest ih =>
    unfold GetName.loop at h
    cases hr : ran (perms.get t).length (draws i) with
    | none => rw [hr] at h; exact absurd h (by simp)
    | some k =>
      rw [hr] at h
      simp only at h
      cases hw : (perms.get t)[k]? with
      | none => rw [hw] at h; exact absurd h (by simp)
      | some word =>
        rw [hw] at h
        intro tok ht
        rcases ih _ _ h tok ht with h1 | h1
        · rcases List.mem_append.mp h1 with h2 | h2
          · exact Or.inl h2
          · exact Or.inr ⟨word, List.mem_singleton.mp h2⟩
        · exact Or.inr h1

theorem unAlias_unAlias (x : List Str) : unAlias (unAlias x) = unAlias x := by
  rw [unAlias_eq_map, unAlias_eq_map, List.map_map]
  exact List.map_congr_left (fun t _ => realName_idem t)

theorem CheckType_loop_first (allTypes pre post : List Str) (t : Str)
    (hpre : ∀ u ∈ pre, u ∈ allTypes) (ht : t ∉ allTypes) :
    CheckType.loop allTypes (pre ++ t :: post) = some (GoError.errorf
      ("type `".toList ++ t ++ "` is not valid. Possible values are: `".toList ++
        strings.Join allTypes "`, `".toList ++ "`".toList)) := by
  induction pre with
  | nil =>
    have hc : contains allTypes t = false := by
      rw [Bool.eq_false_iff]
      exact fun h => ht ((contains_iff _ _).mp h)
    simp only [List.nil_append, CheckType.loop, hc, Bool.not_false, if_true]
  | cons u rest ih =>
    have hc : contains allTypes u = true := (contains_iff _ _).mpr (hpre u (by simp))
    simp only [List.cons_append, CheckType.loop, hc, Bool.not_true, Bool.false_eq_true, if_false]
    exact ih (fun v hv => hpre v (List.mem_cons_of_mem u hv))

/-! ## Lemmas: the lines of a resource -/

theorem pieces_ne_nil (s : Str) : bufio.pieces s ≠ [] := by
  cases s with
  | nil => simp [bufio.pieces]
  | cons c cs =>
    unfold bufio.pieces
    by_cases hc : c = '\n'
    · simp [hc]
    · rw [if_neg hc]
      cases bufio.pieces cs <;> simp

theorem Join_cons_head (c : Char) (l : Str) (ls : List Str) (sep : Str) :
    strings.Join ((c :: l) :: ls) sep = c :: strings.Join (l :: ls) sep := by
  cases ls with
  | nil => rfl
  | cons b rest => simp [strings.Join]

theorem pieces_Join (s : Str) : strings.Join (bufio.pieces s) ['\n'] = s := by
  induction s with
  | nil => rfl
  | cons c cs ih =>
    unfold bufio.pieces
    by_cases hc : c = '\n'
    · rw [if_pos hc]
      cases hp : bufio.pieces cs with
      | nil => exact absurd hp (pieces_ne_nil cs)
      | cons b rest =>
        rw [hp] at ih
        rw [Join_cons_cons, ih, hc]
        rfl
    · rw [if_neg hc]
      cases hp : bufio.pieces cs with
      | nil => exact absurd hp (pieces_ne_nil cs)
      | cons l ls =>
        rw [hp] at ih
        simp only
        rw [Join_cons_head, ih]

theorem pieces_no_newline (s : Str) : ∀ l ∈ bufio.pieces s, '\n' ∉ l := by
  induction s with
  | nil => simp [bufio.pieces]
  | cons c cs ih =>
    unfold bufio.pieces
    by_cases hc : c = '\n'
    · rw [if_pos hc]
      intro l hl
      rcases List.mem_cons.mp hl with rfl | h1
      · simp
      · exact ih l h1
    · rw [if_neg hc]
      cases hp : bufio.pieces cs with
      | nil => exact absurd hp (pieces_ne_nil cs)
      | cons l ls =>
        rw [hp] at ih
        intro x hx
        rcases List.mem_cons.mp hx with rfl | h1
        · intro hm
          rcases List.mem_cons.mp hm with h2 | h2
          · exact hc h2.symm
          · exact ih l (by simp) h2
        · exact ih x (List.mem_cons_of_mem l h1)

theorem pieces_length (s : Str) : (bufio.pieces s).length = s.count '\n' + 1 := by
  induction s with
  | nil => rfl
  | cons c cs ih =>
    unfold bufio.pieces
    by_cases hc : c = '\n'
    · rw [if_pos hc, List.length_cons, ih, hc, List.count_cons_self]
    · rw [if_neg hc]
      cases hp : bufio.pieces cs with
      | nil => exact absurd hp (pieces_ne_nil cs)
      | cons l ls =>
        rw [hp] at ih
        simp only [List.length_cons] at ih ⊢
        rw [ih, List.count_cons_of_ne (fun h => hc h.symm)]

theorem Join_snoc (init : List Str) (last sep : Str) (h : init ≠ []) :
    strings.Join (init ++ [last]) sep = strings.Join init sep ++ sep ++ last := by
  induction init with
  | nil => exact absurd rfl h
  | cons a rest ih =>
    cases rest with
    | nil => simp [strings.Join]
    | cons b rest =>
      have := ih (by simp)
      simp only [List.cons_append] at this ⊢
      rw [Join_cons_cons, this, Join_cons_cons]
      simp [List.append_assoc]

theorem scan_short (ls : List Str) (h : ∀ l ∈ ls, utf8Len l < bufio.MaxScanTokenSize) :
    bufio.scan ls = (ls.map bufio.dropCR, none) := by
  induction ls with
  | nil => rfl
  | cons l rest ih =>
    have hl : ¬ bufio.MaxScanTokenSize ≤ utf8Len l := Nat.not_le.mpr (h l (by simp))
    have hrest := ih (fun x hx => h x (List.mem_cons_of_mem l hx))
    rw [bufio.scan, if_neg hl, hrest]
    rfl

theorem scan_error (ls : List Str) :
    (bufio.scan ls).2 = none ∨ (bufio.scan ls).2 = some GoError.tooLong := by
  induction ls with
  | nil => exact Or.inl rfl
  | cons l rest ih =>
    unfold bufio.scan
    by_cases hl : bufio.MaxScanTokenSize ≤ utf8Len l
    · rw [if_pos hl]; exact Or.inr rfl
    · rw [if_neg hl]; exact ih

theorem rawLines_spec (data : Str) :
    (∀ l ∈ bufio.rawLines data, '\n' ∉ l) ∧
    data = strings.Join (bufio.rawLines data) ['\n'] ++
      (if data.getLast? = some '\n' then ['\n'] else []) ∧
    (bufio.rawLines data).length =
      data.count '\n' + (if data = [] ∨ data.getLast? = some '\n' then 0 else 1) := by
  have hj := pieces_Join data
  have hn := pieces_no_newline data
  have hlen := pieces_length data
  obtain ⟨init, last, hp⟩ : ∃ init last, bufio.pieces data = init ++ [last] := by
    rcases List.eq_nil_or_concat (bufio.pieces data) with h | ⟨init, last, h⟩
    · exact absurd h (pieces_ne_nil data)
    · exact ⟨init, last, by rw [h, List.concat_eq_append]⟩
  have hgl : (init ++ [last]).getLast? = some last := by simp
  have hdl : (init ++ [last]).dropLast = init := by simp
  unfold bufio.rawLines
  rw [hp] at hj hn hlen ⊢
  rw [hgl, hdl]
  simp only [Option.some.injEq, List.length_append, List.length_singleton] at hlen ⊢
  by_cases hlast : last = []
  · subst hlast
    rw [if_pos rfl]
    by_cases hinit : init = []
    · subst hinit
      have hd : data = [] := by rw [← hj]; rfl
      subst hd
      simp [strings.Join]
    · rw [Join_snoc init [] _ hinit] at hj
      have hg : data.getLast? = some '\n' := by rw [← hj]; simp
      refine ⟨fun l hl => hn l (List.mem_append_left _ hl), ?_, ?_⟩
      · rw [if_pos hg, ← hj]; simp
      · rw [if_pos (Or.inr hg)]; omega
  · rw [if_neg hlast]
    have hnl : '\n' ∉ last := hn last (by simp)
    have hg : data.getLast? = last.getLast? := by
      by_cases hinit : init = []
      · subst hinit
        rw [← hj]; rfl
      · rw [← hj, Join_snoc init last _ hinit, List.getLast?_append_of_ne_nil _ hlast]
    have hg2 : data.getLast? ≠ some '\n' := by
      rw [hg]
      intro h
      exact hnl (List.mem_of_mem_getLast? h)
    have hd : data ≠ [] := by
      intro h
      rw [h] at hg
      exact hlast (List.getLast?_eq_none_iff.mp hg.symm)
    refine ⟨hn, ?_, ?_⟩
    · rw [if_neg hg2, List.append_nil]; exact hj.symm
    · rw [if_neg (by simp [hd, hg2]), List.length_append, List.length_singleton]; omega

theorem pieces_of_no_newline (s : Str) (h : '\n' ∉ s) : bufio.pieces s = [s] := by
  induction s with
  | nil => rfl
  | cons c cs ih =>
    have hc : c ≠ '\n' := fun he => h (by simp [he])
    have hcs : '\n' ∉ cs := fun hm => h (List.mem_cons_of_mem c hm)
    rw [bufio.pieces, if_neg hc, ih hcs]

theorem utf8Len_replicate (n : Nat) : utf8Len (List.replicate n 'a') = n := by
  induction n with
  | zero => rfl
  | succ k ih =>
    have h1 : Char.utf8Size 'a' = 1 := by decide
    unfold utf8Len at ih ⊢
    rw [List.replicate_succ, List.map_cons, List.sum_cons, ih, h1]
    omega

theorem lookup_data_file_some (nameList : EmbedFS) (name : Str)
    (h : name ∈ nameList.map Prod.fst) :
    ∃ data : Str, embed.lookup nameList (dataDirName ++ '/' :: name) =
      some (embed.Entry.file data) := by
  unfold embed.lookup
  have h1 : dataDirName ++ '/' :: name ≠ ['.'] := by
    intro he
    have := congrArg List.length he
    simp [dataDirName] at this
  have h2 : ¬ (dataDirName ++ '/' :: name = dataDirName ∧ nameList ≠ []) := by
    rintro ⟨he, _⟩
    have := congrArg List.length he
    simp at this
  rw [if_neg h1, if_neg h2]
  cases hf : nameList.find?
      (fun f => decide (dataDirName ++ '/' :: f.1 = dataDirName ++ '/' :: name)) with
  | none =>
    rw [List.find?_eq_none] at hf
    obtain ⟨f, hfm, hfn⟩ := List.mem_map.mp h
    exact absurd (by simp [hfn]) (hf f hfm)
  | some f => exact ⟨f.2, rfl⟩

theorem readData_loop_error_source (nameList : EmbedFS) (ts : List Str) (perms p : Permutations)
    (e : GoError) (h : readData.loop nameList ts perms = (p, some e)) :
    ∃ t ∈ ts, (readLines nameList (t ++ dataFileSuffix)).2 = some e := by
  induction ts generalizing perms with
  | nil => simp [readData.loop] at h
  | cons t rest ih =>
    unfold readData.loop at h
    rcases hrl : readLines nameList (t ++ dataFileSuffix) with ⟨data, err⟩
    rw [hrl] at h
    cases err with
    | some e2 =>
      simp only [Prod.mk.injEq, Option.some.injEq] at h
      exact ⟨t, by simp, by rw [hrl, ← h.2]⟩
    | none =>
      simp only at h
      obtain ⟨u, hu, he⟩ := ih _ h
      exact ⟨u, List.mem_cons_of_mem t hu, he⟩

theorem GetName_error_source (nameList : EmbedFS) (types : List Str) (separator : Str)
    (randomNumer : Bool) (draws : Nat → Nat) (e : GoError)
    (h : GetName nameList types separator randomNumer draws = Outcome.error e) :
    ∃ t ∈ unAlias types, (readLines nameList (t ++ dataFileSuffix)).2 = some e := by
  unfold GetName at h
  rcases hrd : readData nameList (unAlias types) with ⟨perms, err⟩
  rw [hrd] at h
  cases err with
  | some e2 =>
    simp only [Outcome.error.injEq] at h
    subst h
    exact readData_loop_error_source nameList _ [] perms e2 hrd
  | none =>
    simp only at h
    cases hl : GetName.loop perms separator draws (unAlias types) 0 [] with
    | none => rw [hl] at h; simp at h
    | some name =>
      rw [hl] at h
      cases randomNumer <;> simp [randomNumber_eq] at h

/-! ## Lemmas: library functions restated, and lines that are too long -/

theorem Join_eq_intercalate (toks : List Str) (sep : Str) :
    strings.Join toks sep = List.intercalate sep toks := by
  induction toks with
  | nil => rfl
  | cons a rest ih =>
    cases rest with
    | nil => simp [strings.Join, List.intercalate]
    | cons b rest =>
      rw [Join_cons_cons, ih]
      simp [List.intercalate, List.append_assoc]

theorem Replace_eq_flatMap (w : Str) (old : Char) (new : Str) :
    strings.Replace w old new = w.flatMap (fun c => if c = old then new else [c]) := by
  induction w with
  | nil => rfl
  | cons x xs ih =>
    unfold strings.Replace
    by_cases hx : x = old
    · rw [if_pos hx, ih, List.flatMap_cons, if_pos hx]
    · rw [if_neg hx, ih, List.flatMap_cons, if_neg hx]
      rfl

theorem Sprintd_eq_repr (n : Nat) : fmt.Sprintd n = (Nat.repr n).toList := rfl

theorem replicate_a_no_newline (n : Nat) : '\n' ∉ List.replicate n 'a' := by
  intro h
  have := List.eq_of_mem_replicate h
  revert this
  decide

theorem replicate_a_ne_nil : List.replicate 65536 'a' ≠ [] := by
  intro h
  have := congrArg List.length h
  rw [List.length_replicate] at this
  exact absurd this (by decide)

theorem rawLines_long_line :
    bufio.rawLines (List.replicate 65536 'a') = [List.replicate 65536 'a'] := by
  unfold bufio.rawLines
  rw [pieces_of_no_newline _ (replicate_a_no_newline _)]
  have : ([List.replicate 65536 'a'] : List Str).getLast? ≠ some [] := by
    simp only [List.getLast?_singleton, ne_eq, Option.some.injEq]
    exact replicate_a_ne_nil
  rw [if_neg this]

theorem long_line_too_long : bufio.MaxScanTokenSize ≤ utf8Len (List.replicate 65536 'a') := by
  rw [utf8Len_replicate]
  decide

theorem scan_long (pre post : List Str) (l : Str)
    (hpre : ∀ x ∈ pre, utf8Len x < bufio.MaxScanTokenSize)
    (hl : bufio.MaxScanTokenSize ≤ utf8Len l) :
    bufio.scan (pre ++ l :: post) = (pre.map bufio.dropCR, some GoError.tooLong) := by
  induction pre with
  | nil =>
    rw [List.nil_append, bufio.scan, if_pos hl]
    rfl
  | cons x rest ih =>
    have hx : ¬ bufio.MaxScanTokenSize ≤ utf8Len x := Nat.not_le.mpr (hpre x (by simp))
    have hrest := ih (fun y hy => hpre y (List.mem_cons_of_mem x hy))
    rw [List.cons_append, bufio.scan, if_neg hx, hrest]
    rfl

theorem readData_loop_head_error (nameList : EmbedFS) (t : Str) (rest : List Str)
    (perms : Permutations) (d : List Str) (e : GoError)
    (h : readLines nameList (t ++ dataFileSuffix) = (d, some e)) :
    readData.loop nameList (t :: rest) perms = (perms, some e) := by
  rw [readData.loop, h]

theorem readData_loop_head_ok (nameList : EmbedFS) (t : Str) (rest : List Str)
    (perms : Permutations) (d : List Str)
    (h : readLines nameList (t ++ dataFileSuffix) = (d, none)) :
    readData.loop nameList (t :: rest) perms = readData.loop nameList rest (perms.set t d) := by
  rw [readData.loop, h]

theorem GetName_of_readData_error (nameList : EmbedFS) (types : List Str) (separator : Str)
    (randomNumer : Bool) (draws : Nat → Nat) (p : Permutations) (e : GoError)
    (h : readData.loop nameList (unAlias types) [] = (p, some e)) :
    GetName nameList types separator randomNumer draws = Outcome.error e := by
  unfold GetName readData
  rw [h]

theorem dropCR_append_cr (l : Str) : bufio.dropCR (l ++ ['\r']) = l := by
  unfold bufio.dropCR
  simp

theorem dropCR_of_no_cr (l : Str) (h : l.getLast? ≠ some '\r') : bufio.dropCR l = l := by
  unfold bufio.dropCR
  rw [if_neg h]

/-! ## The claims -/

/-- C1 fails as stated: the category `words` has a bundled word list that is not
empty (its first line is `ok`), but a later line of 65536 bytes makes the scanner
stop with `ErrTooLong`, and `GetName` returns that error and no name. -/
theorem GetName_long_line_error :
    embed.lookup longTailFS (path.Join [dataDirName, "words".toList ++ dataFileSuffix]) =
      some (embed.Entry.file ('o' :: 'k' :: '\n' :: List.replicate 65536 'a')) ∧
    readLines longTailFS ("words".toList ++ dataFileSuffix) =
      (["ok".toList], some GoError.tooLong) ∧
    GetName longTailFS ["words".toList] "-".toList false (fun _ => 0) =
      Outcome.error GoError.tooLong := by
  have hpath : path.Join [dataDirName, "words".toList ++ dataFileSuffix] =
      "data/words.txt".toList := by decide
  have hlook : embed.lookup longTailFS "data/words.txt".toList =
      some (embed.Entry.file ('o' :: 'k' :: '\n' :: List.replicate 65536 'a')) := rfl
  have hraw : bufio.rawLines ('o' :: 'k' :: '\n' :: List.replicate 65536 'a') =
      ["ok".toList, List.replicate 65536 'a'] := by
    have hp : bufio.pieces ('o' :: 'k' :: '\n' :: List.replicate 65536 'a') =
        ["ok".toList, List.replicate 65536 'a'] := by
      rw [bufio.pieces, if_neg (by decide), bufio.pieces, if_neg (by decide), bufio.pieces,
        if_pos rfl, pieces_of_no_newline _ (replicate_a_no_newline _)]
      rfl
    unfold bufio.rawLines
    rw [hp]
    have : (["ok".toList, List.replicate 65536 'a'] : List Str).getLast? ≠ some [] := by
      simp only [List.getLast?_cons_cons, List.getLast?_singleton, ne_eq, Option.some.injEq]
      exact replicate_a_ne_nil
    rw [if_neg this]
  have hread : readLines longTailFS ("words".toList ++ dataFileSuffix) =
      (["ok".toList], some GoError.tooLong) := by
    unfold readLines
    rw [hpath, hlook]
    simp only [hraw]
    exact scan_long ["ok".toList] [] _ (by decide) long_line_too_long
  exact ⟨by rw [hpath, hlook], hread,
    GetName_of_readData_error longTailFS ["words".toList] _ _ _ [] _
      (readData_loop_head_error longTailFS "words".toList [] [] _ _ hread)⟩

/-- C1, amended: when every alias-resolved category has a bundled word list that
`readLines` loads without error and that is not empty, `GetName` returns the
separator-join of one token per category in request order, the token of a
category being an entry of its word list with every space replaced by the
separator, followed by the decimal digits of the random number as one more last
token exactly when the flag is set. -/
theorem GetName_joins_tokens (nameList : EmbedFS) (types : List Str) (separator : Str)
    (randomNumer : Bool) (draws : Nat → Nat)
    (h : ∀ t ∈ unAlias types, (readLines nameList (t ++ dataFileSuffix)).2 = none ∧
      (readLines nameList (t ++ dataFileSuffix)).1 ≠ []) :
    ∃ words : List Str, ∃ n : Nat,
      List.Forall₂ (fun word t => word ∈ (readLines nameList (t ++ dataFileSuffix)).1)
        words (unAlias types) ∧
      randomNumber (draws (unAlias types).length) = some n ∧
      GetName nameList types separator randomNumer draws =
        Outcome.ok (List.intercalate separator
          (words.map (fun word => word.flatMap (fun c => if c = ' ' then separator else [c])) ++
            (if randomNumer = true then [(Nat.repr n).toList] else []))) := by
  obtain ⟨p, hp, hget⟩ := readData_loop_ok nameList (unAlias types) [] (fun t ht => (h t ht).1)
  have hne : ∀ t ∈ unAlias types, p.get t ≠ [] := by
    intro t ht
    rw [hget t, if_pos ht]
    exact (h t ht).2
  obtain ⟨words, hw, hl⟩ := GetName_loop_some p separator draws (unAlias types) 0 [] hne
  refine ⟨words, draws (unAlias types).length % 899999 + 100000, ?_, randomNumber_eq _, ?_⟩
  · refine List.Forall₂.imp ?_ (List.forall₂_iff_zip.mpr ⟨List.Forall₂.length_eq hw, ?_⟩)
      (R := fun word t => t ∈ unAlias types ∧ word ∈ p.get t)
    · intro word t ⟨ht, hmem⟩
      rw [hget t, if_pos ht] at hmem
      exact hmem
    · intro word t hz
      exact ⟨(List.of_mem_zip hz).2, (List.forall₂_iff_zip.mp hw).2 hz⟩
  · have hmap : words.map (fun word => word.flatMap (fun c => if c = ' ' then separator else [c]))
        = words.map (fun word => strings.Replace word ' ' separator) :=
      List.map_congr_left (fun w _ => (Replace_eq_flatMap w ' ' separator).symm)
    rw [hmap, ← Join_eq_intercalate, ← Sprintd_eq_repr]
    unfold GetName readData
    rw [hp]
    simp only [hl, randomNumber_eq, List.nil_append]
    cases randomNumer <;> simp

/-- C1, amended, at the resource set `sampleFS`, the request `[colour, dog]`, the
separator `-`, the flag set and the constant draw `7`: the name is
`blue-dogs-two-100007`. -/
theorem GetName_joins_tokens_witness :
    (∃ words : List Str, ∃ n : Nat,
      List.Forall₂ (fun word t => word ∈ (readLines sampleFS (t ++ dataFileSuffix)).1)
        words (unAlias ["colour".toList, "dog".toList]) ∧
      randomNumber ((fun _ => 7) (unAlias ["colour".toList, "dog".toList]).length) = some n ∧
      GetName sampleFS ["colour".toList, "dog".toList] "-".toList true (fun _ => 7) =
        Outcome.ok (List.intercalate "-".toList
          (words.map (fun word => word.flatMap (fun c => if c = ' ' then "-".toList else [c])) ++
            (if true = true then [(Nat.repr n).toList] else [])))) ∧
    GetName sampleFS ["colour".toList, "dog".toList] "-".toList true (fun _ => 7) =
      Outcome.ok "blue-dogs-two-100007".toList :=
  ⟨GetName_joins_tokens sampleFS ["colour".toList, "dog".toList] "-".toList true (fun _ => 7)
    (by decide), by decide⟩

/-- C2 fails as stated: with the word lists `colour.txt` and `dog.txt` the alias
`dog` resolves to `dogs`, the resource `data/dogs.txt` is opened, and `GetName`
returns the error of the missing file. -/
theorem GetName_scenario_dog_txt_error :
    (readLines scenarioFS "colour.txt".toList).1 = ["red".toList, "blue".toList] ∧
    (readLines scenarioFS "dog.txt".toList).1 = ["dogs one".toList, "dogs two".toList] ∧
    GetName scenarioFS ["colour".toList, "dog".toList] "-".toList false (fun _ => 0) =
      Outcome.error (GoError.notExist "open".toList "data/dogs.txt".toList) := by
  decide

/-- C2, amended: with the word lists `colour.txt = [red, blue]` and
`dogs.txt = [dogs one, dogs two]`, `GetName ["colour", "dog"] "-" false` returns,
for every random draw, one of `red-dogs-one`, `blue-dogs-one`, `red-dogs-two`,
`blue-dogs-two`. -/
theorem GetName_scenario (nameList : EmbedFS) (draws : Nat → Nat)
    (hc : readLines nameList "colour.txt".toList = (["red".toList, "blue".toList], none))
    (hd : readLines nameList "dogs.txt".toList =
      (["dogs one".toList, "dogs two".toList], none)) :
    GetName nameList ["colour".toList, "dog".toList] "-".toList false draws ∈
      [Outcome.ok "red-dogs-one".toList, Outcome.ok "blue-dogs-one".toList,
       Outcome.ok "red-dogs-two".toList, Outcome.ok "blue-dogs-two".toList] := by
  have hu : unAlias ["colour".toList, "dog".toList] = ["colour".toList, "dogs".toList] := rfl
  have hc2 : readLines nameList ("colour".toList ++ dataFileSuffix) =
      (["red".toList, "blue".toList], none) := hc
  have hd2 : readLines nameList ("dogs".toList ++ dataFileSuffix) =
      (["dogs one".toList, "dogs two".toList], none) := hd
  have hrd : readData nameList ["colour".toList, "dogs".toList] =
      ([("dogs".toList, ["dogs one".toList, "dogs two".toList]),
        ("colour".toList, ["red".toList, "blue".toList])], none) := by
    simp only [readData, readData.loop, hc2, hd2, Permutations.set]
  have hloop : ∀ a b : Nat, a < 2 → b < 2 →
      (match GetName.loop
          [("dogs".toList, ["dogs one".toList, "dogs two".toList]),
            ("colour".toList, ["red".toList, "blue".toList])] "-".toList
          (fun i => if i = 0 then a else b) ["colour".toList, "dogs".toList] 0 [] with
        | none => Outcome.panic
        | some name => Outcome.ok (strings.Join name "-".toList)) ∈
      [Outcome.ok "red-dogs-one".toList, Outcome.ok "blue-dogs-one".toList,
       Outcome.ok "red-dogs-two".toList, Outcome.ok "blue-dogs-two".toList] := by
    intro a b ha hb
    interval_cases a <;> interval_cases b <;> decide
  have hindep : ∀ d : Nat → Nat,
      GetName.loop
          [("dogs".toList, ["dogs one".toList, "dogs two".toList]),
            ("colour".toList, ["red".toList, "blue".toList])] "-".toList
          d ["colour".toList, "dogs".toList] 0 [] =
      GetName.loop
          [("dogs".toList, ["dogs one".toList, "dogs two".toList]),
            ("colour".toList, ["red".toList, "blue".toList])] "-".toList
          (fun i => if i = 0 then d 0 % 2 else d 1 % 2) ["colour".toList, "dogs".toList] 0 [] := by
    intro d
    have g1 : Permutations.get [("dogs".toList, ["dogs one".toList, "dogs two".toList]),
            ("colour".toList, ["red".toList, "blue".toList])] "colour".toList =
            ["red".toList, "blue".toList] := rfl
    have g2 : Permutations.get [("dogs".toList, ["dogs one".toList, "dogs two".toList]),
            ("colour".toList, ["red".toList, "blue".toList])] "dogs".toList =
            ["dogs one".toList, "dogs two".toList] := rfl
    simp only [GetName.loop, g1, g2, ran, rand.Intn, List.length_cons, List.length_nil,
      Nat.zero_add, Nat.reduceAdd, if_true, if_false, Nat.mod_mod, OfNat.ofNat_ne_zero,
      one_ne_zero]
  unfold GetName
  rw [hu, hrd]
  simp only [Bool.false_eq_true, if_false]
  rw [hindep draws]
  exact hloop (draws 0 % 2) (draws 1 % 2) (Nat.mod_lt _ (by decide)) (Nat.mod_lt _ (by decide))

/-- C2, amended, at the resource set `sampleFS` and the draws `0, 1, 2, ...`. -/
theorem GetName_scenario_witness :
    GetName sampleFS ["colour".toList, "dog".toList] "-".toList false (fun i => i) ∈
      [Outcome.ok "red-dogs-one".toList, Outcome.ok "blue-dogs-one".toList,
       Outcome.ok "red-dogs-two".toList, Outcome.ok "blue-dogs-two".toList] :=
  GetName_scenario sampleFS (fun i => i) (by decide) (by decide)

/-- C3 fails as stated: for the valid list `[colour, dog]` and the separator `-`
the name `red-dogs-one` is returned, which splits into three tokens, not two. -/
theorem GetName_split_three_tokens :
    CheckType sampleFS ["colour".toList, "dog".toList] = none ∧
    GetName sampleFS ["colour".toList, "dog".toList] "-".toList false (fun _ => 0) =
      Outcome.ok "red-dogs-one".toList ∧
    strings.Split "red-dogs-one".toList "-".toList =
      ["red".toList, "dogs".toList, "one".toList] ∧
    (strings.Split "red-dogs-one".toList "-".toList).length ≠
      ["colour".toList, "dog".toList].length + (if false = true then 1 else 0) := by
  decide

/-- C3, amended: when every alias-resolved category has a non-empty word list,
at least one token is requested (the list is not empty or the flag is set), the
separator is not empty and its first character occurs in no word of the
requested lists and is not a digit when the flag is set, and no such word holds a
space, then `GetName` returns a string that, split on the separator, consists of
exactly `len(categories) + (1 if the flag is set)` tokens. -/
theorem GetName_split_count (nameList : EmbedFS) (types : List Str) (separator : Str)
    (randomNumer : Bool) (draws : Nat → Nat) (c : Char)
    (hvalid : ∀ t ∈ unAlias types, (readLines nameList (t ++ dataFileSuffix)).2 = none ∧
      (readLines nameList (t ++ dataFileSuffix)).1 ≠ [])
    (hsep : separator.head? = some c)
    (hwords : ∀ t ∈ unAlias types, ∀ w ∈ (readLines nameList (t ++ dataFileSuffix)).1,
      ' ' ∉ w ∧ c ∉ w)
    (hdigit : randomNumer = true → c ∉ "0123456789".toList)
    (hne : types ≠ [] ∨ randomNumer = true) :
    ∃ s : Str, GetName nameList types separator randomNumer draws = Outcome.ok s ∧
      (strings.Split s separator).length =
        types.length + (if randomNumer = true then 1 else 0) := by
  obtain ⟨words, hwlen, hmem, hg⟩ :=
    GetName_ok_words nameList types separator randomNumer draws hvalid
  obtain ⟨sep, rfl⟩ : ∃ sep, separator = c :: sep := by
    cases separator with
    | nil => simp at hsep
    | cons x xs =>
      simp only [List.head?_cons, Option.some.injEq] at hsep
      exact ⟨xs, by rw [hsep]⟩
  have hwm : ∀ w ∈ words, ' ' ∉ w ∧ c ∉ w := by
    intro w hw
    obtain ⟨t, ht, hwt⟩ := hmem w hw
    exact hwords t ht w hwt
  have hmap : words.map (fun word => strings.Replace word ' ' (c :: sep)) = words := by
    conv => rhs; rw [← List.map_id words]
    apply List.map_congr_left
    intro w hwmem
    exact Replace_of_not_mem w ' ' _ (hwm w hwmem).1
  refine ⟨_, hg, ?_⟩
  rw [hmap]
  rw [Split_Join c sep]
  · cases randomNumer <;> simp [hwlen]
  · rcases hne with h1 | h1
    · intro he
      have h2 := congrArg List.length he
      simp only [List.length_append, hwlen, List.length_nil] at h2
      have : types.length ≠ 0 := fun h0 => h1 (List.length_eq_zero.mp h0)
      omega
    · simp [h1]
  · intro t ht
    rcases List.mem_append.mp ht with h1 | h1
    · exact (hwm t h1).2
    · by_cases hf : randomNumer = true
      · rw [if_pos hf, List.mem_singleton] at h1
        subst h1
        exact fun hc => hdigit hf (Sprintd_digits _ c hc)
      · rw [if_neg hf] at h1
        exact absurd h1 (List.not_mem_nil t)

/-- C3, amended, at the resource set `plainFS`, the request `[colour, dog]`, the separator `-` and the flag set. -/
theorem GetName_split_count_witness :
    ∃ s : Str, GetName plainFS ["colour".toList, "dog".toList] "-".toList true (fun _ => 0) =
        Outcome.ok s ∧
      (strings.Split s "-".toList).length =
        ["colour".toList, "dog".toList].length + (if true = true then 1 else 0) :=
  GetName_split_count plainFS ["colour".toList, "dog".toList] "-".toList true (fun _ => 0) '-'
    (by decide) (by decide) (by decide) (by decide) (by decide)

/-- C4: for every value of the random source, `randomNumber` yields an integer
`n` with `100000 <= n <= 999999`; so whenever `GetName` is called with the flag
set and succeeds, its result is the join of one token per category and a last
token that is the decimal rendering of an integer of `[100000, 999999]`. -/
theorem randomNumber_six_digits :
    (∀ raw : Nat, ∃ n : Nat, randomNumber raw = some n ∧
      randonmNumberMin ≤ n ∧ n ≤ randonmNumberMax ∧ 100000 ≤ n ∧ n ≤ 999999) ∧
    (∀ (nameList : EmbedFS) (types : List Str) (separator : Str) (draws : Nat → Nat)
      (s : Str), GetName nameList types separator true draws = Outcome.ok s →
      ∃ (toks : List Str) (n : Nat), toks.length = types.length ∧
        100000 ≤ n ∧ n ≤ 999999 ∧ s = strings.Join (toks ++ [fmt.Sprintd n]) separator) := by
  constructor
  · intro raw
    refine ⟨raw % 899999 + 100000, randomNumber_eq raw, ?_⟩
    have := Nat.mod_lt raw (show 899999 > 0 by decide)
    simp only [randonmNumberMin, randonmNumberMax]
    omega
  · intro nameList types separator draws s hs
    unfold GetName at hs
    rcases hrd : readData nameList (unAlias types) with ⟨perms, err⟩
    rw [hrd] at hs
    cases err with
    | some e => simp at hs
    | none =>
      simp only at hs
      cases hl : GetName.loop perms separator draws (unAlias types) 0 [] with
      | none => rw [hl] at hs; simp at hs
      | some name =>
        rw [hl] at hs
        simp only [randomNumber_eq, if_true, Outcome.ok.injEq] at hs
        obtain ⟨toks, he, hlen⟩ := GetName_loop_length _ _ _ _ _ _ _ hl
        refine ⟨toks, draws (unAlias types).length % 899999 + 100000, ?_, ?_, ?_, ?_⟩
        · rw [hlen, unAlias_eq_map, List.length_map]
        · omega
        · have := Nat.mod_lt (draws (unAlias types).length) (show 899999 > 0 by decide)
          omega
        · rw [← hs, he, List.nil_append]

/-- C4 at the name `blue-dogs-two-100007`, returned for `sampleFS` and the constant draw `7`. -/
theorem randomNumber_six_digits_witness :
    ∃ (toks : List Str) (n : Nat), toks.length = ["colour".toList, "dog".toList].length ∧
        100000 ≤ n ∧ n ≤ 999999 ∧
        "blue-dogs-two-100007".toList = strings.Join (toks ++ [fmt.Sprintd n]) "-".toList :=
  randomNumber_six_digits.2 sampleFS ["colour".toList, "dog".toList] "-".toList (fun _ => 7)
    "blue-dogs-two-100007".toList (by decide)

/-- C5: the values of `randomNumber` stop one short of `randonmNumberMax`: the
largest draw `899998` of `Intn(899999)` gives `999998`, every draw gives a value
of `[100000, 999998]`, each of these is produced, and `999999` never is. -/
theorem randomNumber_never_max :
    randomNumber 899998 = some 999998 ∧
    (∀ raw : Nat, ∃ n : Nat, randomNumber raw = some n ∧ 100000 ≤ n ∧ n ≤ 999998) ∧
    (∀ n : Nat, 100000 ≤ n ∧ n ≤ 999998 ↔ ∃ r : Nat, r < 899999 ∧ randomNumber r = some n) ∧
    ¬ ∃ raw : Nat, randomNumber raw = some randonmNumberMax := by
  refine ⟨by decide, ?_, ?_, ?_⟩
  · intro raw
    refine ⟨raw % 899999 + 100000, randomNumber_eq raw, ?_⟩
    have := Nat.mod_lt raw (show 899999 > 0 by decide)
    omega
  · intro n
    constructor
    · intro hn
      refine ⟨n - 100000, by omega, ?_⟩
      rw [randomNumber_eq, Nat.mod_eq_of_lt (by omega)]
      congr 1
      omega
    · rintro ⟨r, hr, he⟩
      rw [randomNumber_eq, Nat.mod_eq_of_lt hr] at he
      simp only [Option.some.injEq] at he
      omega
  · rintro ⟨raw, he⟩
    rw [randomNumber_eq] at he
    simp only [Option.some.injEq, randonmNumberMax] at he
    have := Nat.mod_lt raw (show 899999 > 0 by decide)
    omega

/-- C6: provided the resource directory can be listed (and its file names end in
`.txt`, as the pattern `data/*.txt` embeds them), `CheckType` succeeds exactly
when `<t>.txt` is a bundled file for every alias-resolved category `t`; so
`CheckType ["tree"]` succeeds exactly when `trees.txt` is bundled. -/
theorem CheckType_ok_iff (nameList : EmbedFS) (types : List Str)
    (hdir : (PossibleTypes nameList).2 = none)
    (htxt : ∀ f ∈ nameList, strings.HasSuffix f.1 dataFileSuffix = true) :
    (CheckType nameList types = none ↔
      ∀ t ∈ unAlias types, t ++ dataFileSuffix ∈ nameList.map Prod.fst) ∧
    (CheckType nameList ["tree".toList] = none ↔
      "trees.txt".toList ∈ nameList.map Prod.fst) := by
  have key : ∀ t : Str, t ∈ (PossibleTypes nameList).1 ↔
      t ++ dataFileSuffix ∈ nameList.map Prod.fst := by
    intro t
    rw [PossibleTypes_ok nameList hdir]
    simp only [List.mem_map]
    constructor
    · rintro ⟨f, hf, rfl⟩
      obtain ⟨s, hs⟩ := (HasSuffix_iff _ _).mp (htxt f hf)
      refine ⟨f, hf, ?_⟩
      rw [hs, TrimSuffix_append]
    · rintro ⟨f, hf, hft⟩
      refine ⟨f, hf, ?_⟩
      rw [hft, TrimSuffix_append]
  have main : ∀ ts : List Str, CheckType nameList ts = none ↔
      ∀ t ∈ unAlias ts, t ++ dataFileSuffix ∈ nameList.map Prod.fst := by
    intro ts
    rw [CheckType_of_ok nameList ts hdir, CheckType_loop_none_iff]
    exact forall₂_congr (fun t _ => key t)
  refine ⟨main types, ?_⟩
  rw [main]
  have : unAlias ["tree".toList] = ["trees".toList] := rfl
  rw [this]
  simp only [List.mem_singleton, forall_eq]
  exact Iff.rfl

/-- C6 at the resource set `treesFS` and the request `[tree]`. -/
theorem CheckType_ok_iff_witness :
    (CheckType treesFS ["tree".toList] = none ↔
      ∀ t ∈ unAlias ["tree".toList], t ++ dataFileSuffix ∈ treesFS.map Prod.fst) ∧
    (CheckType treesFS ["tree".toList] = none ↔
      "trees.txt".toList ∈ treesFS.map Prod.fst) :=
  CheckType_ok_iff treesFS ["tree".toList] (by decide) (by decide)

/-- C7 fails as stated: `tree` is not in the known set of a resource set whose
only word list is `trees`, yet `CheckType ["tree"]` returns no error. -/
theorem CheckType_alias_no_error :
    "tree".toList ∉ (PossibleTypes treesFS).1 ∧ (PossibleTypes treesFS).2 = none ∧
    CheckType treesFS ["tree".toList] = none := by
  decide

/-- C7, amended: for every category `c` whose alias-resolved name `r` is not in
the known set returned by `PossibleTypes`, `CheckType [c]` returns the
invalid-category error whose message names `r`; `r` is `c` itself unless `c` is
one of the aliases `tree` and `dog`. -/
theorem CheckType_invalid_names_resolved (nameList : EmbedFS) (c r : Str)
    (hdir : (PossibleTypes nameList).2 = none)
    (hr : unAlias [c] = [r])
    (hnot : r ∉ (PossibleTypes nameList).1) :
    CheckType nameList [c] = some (GoError.errorf
      ("type `".toList ++ r ++ "` is not valid. Possible values are: `".toList ++
        strings.Join (PossibleTypes nameList).1 "`, `".toList ++ "`".toList)) ∧
    (c ≠ "tree".toList → c ≠ "dog".toList → r = c) := by
  constructor
  · rw [CheckType_of_ok nameList [c] hdir, hr]
    have hc : contains (PossibleTypes nameList).1 r = false := by
      rw [Bool.eq_false_iff]
      exact fun h => hnot ((contains_iff _ _).mp h)
    simp only [CheckType.loop, hc, Bool.not_false, if_true]
  · intro h1 h2
    have : unAlias [c] = [c] := by
      rw [unAlias_eq_map]
      simp only [List.map, realName]
      rw [if_neg h1, if_neg h2]
    rw [this] at hr
    exact (List.cons.inj hr).1.symm

/-- C7, amended, at the resource set `sampleFS` and the alias `tree`, resolved to the unknown `trees`. -/
theorem CheckType_invalid_names_resolved_witness :
    CheckType sampleFS ["tree".toList] = some (GoError.errorf
      ("type `".toList ++ "trees".toList ++ "` is not valid. Possible values are: `".toList ++
        strings.Join (PossibleTypes sampleFS).1 "`, `".toList ++ "`".toList)) ∧
    ("tree".toList ≠ "tree".toList → "tree".toList ≠ "dog".toList →
      "trees".toList = "tree".toList) :=
  CheckType_invalid_names_resolved sampleFS "tree".toList "trees".toList
    (by decide) (by decide) (by decide)

/-- C8 fails as stated: `./colour` is not a canonical category, yet
`path.Join` cleans `data/./colour.txt` to `data/colour.txt`, the resource opens
and `GetName` returns a name. -/
theorem GetName_dot_slash_succeeds :
    "./colour".toList ∈ unAlias ["./colour".toList] ∧
    "./colour".toList ∉ (PossibleTypes sampleFS).1 ∧
    path.Join [dataDirName, "./colour".toList ++ dataFileSuffix] = "data/colour.txt".toList ∧
    GetName sampleFS ["./colour".toList] "-".toList false (fun _ => 0) =
      Outcome.ok "red".toList := by
  decide

/-- C8, amended: if some alias-resolved category that contains no `/` is not in
the canonical category set (the names returned by `PossibleTypes`), `GetName`
returns an error and no name, for every separator, flag and random draw. -/
theorem GetName_error_of_unknown (nameList : EmbedFS) (types : List Str) (separator : Str)
    (randomNumer : Bool) (draws : Nat → Nat) (t : Str)
    (ht : t ∈ unAlias types) (hslash : '/' ∉ t) (hnot : t ∉ (PossibleTypes nameList).1) :
    ∃ e : GoError, GetName nameList types separator randomNumer draws = Outcome.error e := by
  obtain ⟨p, e, hp⟩ := readData_loop_err nameList (unAlias types) []
    ⟨t, ht, readLines_unknown nameList t hslash hnot⟩
  refine ⟨e, ?_⟩
  unfold GetName readData
  rw [hp]

/-- C8, amended, at the resource set `sampleFS` and the request `[colour, cat]`. -/
theorem GetName_error_of_unknown_witness :
    ∃ e : GoError, GetName sampleFS ["colour".toList, "cat".toList] "-".toList true (fun _ => 0) =
      Outcome.error e :=
  GetName_error_of_unknown sampleFS ["colour".toList, "cat".toList] "-".toList true (fun _ => 0)
    "cat".toList (by decide) (by decide) (by decide)

/-- C9: alias resolution is idempotent, `unAlias (unAlias x) = unAlias x` for
every list `x`. -/
theorem unAlias_idempotent (x : List Str) : unAlias (unAlias x) = unAlias x := by
  rw [unAlias_eq_map, unAlias_eq_map, List.map_map]
  apply List.map_congr_left
  intro t _
  exact realName_idem t

/-- C10: `unAlias` is a pointwise substitution.  The output has the length of
the input, its `i`-th element is `trees` for `tree`, `dogs` for `dog` (the values
of the alias table) and the `i`-th input element otherwise, and
`unAlias ["tree"] = ["trees"]`, `unAlias ["cat"] = ["cat"]`. -/
theorem unAlias_pointwise (types : List Str) :
    (unAlias types).length = types.length ∧
    (∀ i : Nat, (unAlias types)[i]? = (types[i]?).map (fun t =>
      match aliases.lookup t with
      | some real => real
      | none => t)) ∧
    (∀ t : Str, aliases.lookup t =
      if t = "tree".toList then some "trees".toList
      else if t = "dog".toList then some "dogs".toList else none) ∧
    unAlias ["tree".toList] = ["trees".toList] ∧
    unAlias ["cat".toList] = ["cat".toList] := by
  refine ⟨?_, ?_, aliases_lookup, rfl, rfl⟩
  · rw [unAlias_eq_map, List.length_map]
  · intro i
    induction types generalizing i with
    | nil => simp [unAlias]
    | cons t ts ih =>
      cases i with
      | zero =>
        cases h : aliases.lookup t <;> simp [unAlias, h]
      | succ j =>
        have := ih j
        cases h : aliases.lookup t <;> simpa [unAlias, h] using this

/-- C11: for the empty category list and every separator, `GetName [] sep true`
succeeds and returns exactly the decimal digits of the random number, a string
of exactly 6 digit characters and nothing else (no separator before or after),
and `GetName [] sep false` returns the empty string. -/
theorem GetName_empty_list (nameList : EmbedFS) (separator : Str) (draws : Nat → Nat) :
    (∃ n : Nat, randomNumber (draws 0) = some n ∧
      GetName nameList [] separator true draws = Outcome.ok (fmt.Sprintd n) ∧
      (fmt.Sprintd n).length = 6 ∧
      ∀ ch ∈ fmt.Sprintd n, ch ∈ "0123456789".toList) ∧
    GetName nameList [] separator false draws = Outcome.ok [] := by
  have hlt := Nat.mod_lt (draws 0) (show 899999 > 0 by decide)
  refine ⟨⟨draws 0 % 899999 + 100000, randomNumber_eq _, ?_, ?_, Sprintd_digits _⟩, ?_⟩
  · rw [GetName_nil, if_pos rfl]
  · exact Sprintd_length_six _ (by omega) (by omega)
  · rw [GetName_nil, if_neg (by simp)]

/-- C12 fails as stated: with a bundled word list that is empty, the valid
category `blank` passes `CheckType`, and `GetName` calls `ran` with the bound 0
and panics. -/
theorem GetName_panics_on_empty_list :
    CheckType emptyListFS ["blank".toList] = none ∧
    readLines emptyListFS ("blank".toList ++ dataFileSuffix) = ([], none) ∧
    ran 0 0 = none ∧
    GetName emptyListFS ["blank".toList] "-".toList false (fun _ => 0) = Outcome.panic := by
  decide

/-- C12, amended: when no requested word list loads as an empty list, the core
does not panic: for every category list (valid, invalid, empty or with
duplicates), separator and flag, `CheckType` returns `nil` or an error value, and
`GetName` returns a name or an error value. -/
theorem GetName_no_panic (nameList : EmbedFS) (types : List Str) (separator : Str)
    (randomNumer : Bool) (draws : Nat → Nat)
    (h : ∀ t ∈ unAlias types, (readLines nameList (t ++ dataFileSuffix)).2 = none →
      (readLines nameList (t ++ dataFileSuffix)).1 ≠ []) :
    (CheckType nameList types = none ∨ ∃ e : GoError, CheckType nameList types = some e) ∧
    ((∃ s : Str, GetName nameList types separator randomNumer draws = Outcome.ok s) ∨
      ∃ e : GoError, GetName nameList types separator randomNumer draws = Outcome.error e) := by
  constructor
  · cases CheckType nameList types with
    | none => exact Or.inl rfl
    | some e => exact Or.inr ⟨e, rfl⟩
  · by_cases herr : ∃ t ∈ unAlias types, (readLines nameList (t ++ dataFileSuffix)).2 ≠ none
    · exact Or.inr (GetName_of_readData_err nameList types separator randomNumer draws herr)
    · have hload : ∀ t ∈ unAlias types, (readLines nameList (t ++ dataFileSuffix)).2 = none := by
        intro t ht
        by_contra hne
        exact herr ⟨t, ht, hne⟩
      obtain ⟨words, _, _, hg⟩ := GetName_ok_words nameList types separator randomNumer draws
        (fun t ht => ⟨hload t ht, h t ht (hload t ht)⟩)
      exact Or.inl ⟨_, hg⟩

/-- C12, amended, at the resource set `sampleFS` and a request with a duplicate
and an invalid category. -/
theorem GetName_no_panic_witness :
    (CheckType sampleFS ["dog".toList, "dog".toList, "cat".toList] = none ∨
      ∃ e : GoError, CheckType sampleFS ["dog".toList, "dog".toList, "cat".toList] = some e) ∧
    ((∃ s : Str, GetName sampleFS ["dog".toList, "dog".toList, "cat".toList] "-".toList true
        (fun _ => 0) = Outcome.ok s) ∨
      ∃ e : GoError, GetName sampleFS ["dog".toList, "dog".toList, "cat".toList] "-".toList true
        (fun _ => 0) = Outcome.error e) :=
  GetName_no_panic sampleFS ["dog".toList, "dog".toList, "cat".toList] "-".toList true
    (fun _ => 0) (by decide)

/-- C13: for every bundled resource set (not empty, all file names ending in
`.txt`, as the pattern `data/*.txt` embeds it), `PossibleTypes` returns without
error, in listing order and with the same length, the file names with the suffix
`.txt` stripped once; appending `.txt` to each returned element gives back
exactly the bundled file names. -/
theorem PossibleTypes_roundtrip (nameList : EmbedFS)
    (hne : nameList ≠ [])
    (htxt : ∀ f ∈ nameList, strings.HasSuffix f.1 dataFileSuffix = true) :
    (PossibleTypes nameList).2 = none ∧
    (PossibleTypes nameList).1.length = nameList.length ∧
    (PossibleTypes nameList).1 =
      nameList.map (fun f => strings.TrimSuffix f.1 dataFileSuffix) ∧
    (∀ i : Nat, ∀ f : Str, (nameList.map Prod.fst)[i]? = some f →
      ∃ t : Str, (PossibleTypes nameList).1[i]? = some t ∧ f = t ++ dataFileSuffix) ∧
    (PossibleTypes nameList).1.map (fun t => t ++ dataFileSuffix) = nameList.map Prod.fst ∧
    strings.TrimSuffix "a.txt.txt".toList dataFileSuffix = "a.txt".toList := by
  have hmap : (PossibleTypes nameList).1.map (fun t => t ++ dataFileSuffix) =
      nameList.map Prod.fst := by
    rw [PossibleTypes_of_ne_nil nameList hne, List.map_map]
    apply List.map_congr_left
    intro f hf
    obtain ⟨s, hs⟩ := (HasSuffix_iff _ _).mp (htxt f hf)
    simp only [Function.comp_apply]
    rw [hs, TrimSuffix_append]
  refine ⟨?_, ?_, ?_, ?_, hmap, by decide⟩
  · rw [PossibleTypes_of_ne_nil nameList hne]
  · rw [PossibleTypes_of_ne_nil nameList hne, List.length_map]
  · rw [PossibleTypes_of_ne_nil nameList hne]
  · intro i f hf
    rw [← hmap, List.getElem?_map] at hf
    cases ht : (PossibleTypes nameList).1[i]? with
    | none => rw [ht] at hf; exact absurd hf (by simp)
    | some t =>
      rw [ht] at hf
      simp only [Option.map_some', Option.some.injEq] at hf
      exact ⟨t, rfl, hf.symm⟩

/-- C13 at the resource set `sampleFS`. -/
theorem PossibleTypes_roundtrip_witness :
    (PossibleTypes sampleFS).1.map (fun t => t ++ dataFileSuffix) = sampleFS.map Prod.fst :=
  (PossibleTypes_roundtrip sampleFS (by decide) (by decide)).2.2.2.2.1

/-- C14: every occurrence of the space in a selected word is replaced by the
separator, not just the first (`a b c` becomes `a-b-c`), so for every successful
call of `GetName` with a separator that holds no space the returned name holds no
space. -/
theorem GetName_no_space (nameList : EmbedFS) (types : List Str) (separator : Str)
    (randomNumer : Bool) (draws : Nat → Nat) (s : Str)
    (hsep : ' ' ∉ separator)
    (hs : GetName nameList types separator randomNumer draws = Outcome.ok s) :
    ' ' ∉ s ∧ (∀ word : Str, ' ' ∉ strings.Replace word ' ' separator) ∧
    strings.Replace "a b c".toList ' ' "-".toList = "a-b-c".toList := by
  refine ⟨?_, fun word => Replace_no_old word ' ' separator hsep, by decide⟩
  unfold GetName at hs
  rcases hrd : readData nameList (unAlias types) with ⟨perms, err⟩
  rw [hrd] at hs
  cases err with
  | some e => simp at hs
  | none =>
    simp only at hs
    cases hl : GetName.loop perms separator draws (unAlias types) 0 [] with
    | none => rw [hl] at hs; simp at hs
    | some name =>
      rw [hl] at hs
      have hname : ∀ tok ∈ name, ' ' ∉ tok := by
        intro tok ht
        rcases GetName_loop_tokens _ _ _ _ _ _ _ hl tok ht with h1 | ⟨word, rfl⟩
        · exact absurd h1 (List.not_mem_nil tok)
        · exact Replace_no_old word ' ' separator hsep
      cases randomNumer with
      | false =>
        simp only [Bool.false_eq_true, if_false, Outcome.ok.injEq] at hs
        rw [← hs]
        exact Join_not_mem ' ' name separator hsep hname
      | true =>
        simp only [randomNumber_eq, if_true, Outcome.ok.injEq] at hs
        rw [← hs]
        apply Join_not_mem ' ' _ separator hsep
        intro tok ht
        rcases List.mem_append.mp ht with h1 | h1
        · exact hname tok h1
        · rw [List.mem_singleton.mp h1]
          intro hsp
          have := Sprintd_digits _ ' ' hsp
          revert this
          decide

/-- C14 at the resource set `sampleFS`: the name `blue-dogs-two-100007` of the
request `[colour, dog]` with the separator `-`. -/
theorem GetName_no_space_witness :
    ' ' ∉ "blue-dogs-two-100007".toList ∧
    (∀ word : Str, ' ' ∉ strings.Replace word ' ' "-".toList) ∧
    strings.Replace "a b c".toList ' ' "-".toList = "a-b-c".toList :=
  GetName_no_space sampleFS ["colour".toList, "dog".toList] "-".toList true (fun _ => 7)
    "blue-dogs-two-100007".toList (by decide) (by decide)

/-- C15: when `CheckType` fails, the error names the first alias-resolved
category, in request order, that is not in the known set (also when later ones
are invalid too), and lists every element of `PossibleTypes` in its order, joined
by the three characters backquote, comma, space and a backquote; the text is
exactly "type `<t>` is not valid. Possible values are: `<all types joined>`". -/
theorem CheckType_error_text (nameList : EmbedFS) (types pre post : List Str) (t : Str)
    (hdir : (PossibleTypes nameList).2 = none)
    (hsplit : unAlias types = pre ++ t :: post)
    (hpre : ∀ u ∈ pre, u ∈ (PossibleTypes nameList).1)
    (ht : t ∉ (PossibleTypes nameList).1) :
    CheckType nameList types = some (GoError.errorf
      ("type `".toList ++ t ++ "` is not valid. Possible values are: `".toList ++
        List.intercalate "`, `".toList (PossibleTypes nameList).1 ++ "`".toList)) := by
  rw [CheckType_of_ok nameList types hdir, hsplit, ← Join_eq_intercalate]
  exact CheckType_loop_first _ pre post t hpre ht

/-- C15 at the resource set `sampleFS` and the request `[colour, tree, dog, cat]`
with the two invalid categories `trees` (for `tree`) and `cat`: the text names
`trees` and lists `colour` and `dogs`. -/
theorem CheckType_error_text_witness :
    CheckType sampleFS ["colour".toList, "tree".toList, "dog".toList, "cat".toList] =
      some (GoError.errorf
        "type `trees` is not valid. Possible values are: `colour`, `dogs`".toList) :=
  CheckType_error_text sampleFS ["colour".toList, "tree".toList, "dog".toList, "cat".toList]
    ["colour".toList] ["dogs".toList, "cat".toList] "trees".toList
    (by decide) (by decide) (by decide) (by decide)

/-- C16 fails as stated: for a content that is one line of 65536 characters the
scanner stops with `ErrTooLong`, and `readLines` returns no entry (and the
error) for a content of one line. -/
theorem readLines_long_line :
    (List.replicate 65536 'a').length = 65536 ∧
    '\n' ∉ List.replicate 65536 'a' ∧
    readLines bigLineFS "big.txt".toList = ([], some GoError.tooLong) := by
  have hnl : '\n' ∉ List.replicate 65536 'a' := by
    intro h
    have := List.eq_of_mem_replicate h
    revert this
    decide
  refine ⟨List.length_replicate _ _, hnl, ?_⟩
  have hpath : path.Join [dataDirName, "big.txt".toList] = "data/big.txt".toList := by decide
  have hlook : embed.lookup bigLineFS "data/big.txt".toList =
      some (embed.Entry.file (List.replicate 65536 'a')) := rfl
  have hne : List.replicate 65536 'a' ≠ [] := by
    intro h
    have := congrArg List.length h
    rw [List.length_replicate] at this
    exact absurd this (by decide)
  have hraw : bufio.rawLines (List.replicate 65536 'a') = [List.replicate 65536 'a'] := by
    unfold bufio.rawLines
    rw [pieces_of_no_newline _ hnl]
    have : ([List.replicate 65536 'a'] : List Str).getLast? ≠ some [] := by
      simp only [List.getLast?_singleton, ne_eq, Option.some.injEq]
      exact hne
    rw [if_neg this]
  unfold readLines
  rw [hpath, hlook]
  simp only [hraw]
  have hlen : bufio.MaxScanTokenSize ≤ utf8Len (List.replicate 65536 'a') := by
    rw [utf8Len_replicate]
    decide
  rw [bufio.scan, if_pos hlen]

/-- C16, amended: the lines of a resource content are its pieces between `\n`
characters, a final piece that no `\n` ends counting when it is not empty, so
their number is the number of `\n` plus one for such a final piece.  When every
line, counted without its `\n` but with a `\r` before it, is shorter than
`bufio.MaxScanTokenSize` (65536) bytes, `readLines` returns without error one
entry per line in file order, the entry being the line without a `\r` at its
end, nothing filtered or deduplicated (an empty line yields an empty-string
entry), and the number of entries is the number of lines.  The first line of
65536 bytes or more stops the scan: `readLines` returns the entries of the lines
before it and the error `ErrTooLong`. -/
theorem readLines_entries (nameList : EmbedFS) (name data : Str)
    (hopen : embed.lookup nameList (path.Join [dataDirName, name]) =
      some (embed.Entry.file data)) :
    (∀ l ∈ bufio.rawLines data, '\n' ∉ l) ∧
    data = List.intercalate ['\n'] (bufio.rawLines data) ++
      (if data.getLast? = some '\n' then ['\n'] else []) ∧
    (bufio.rawLines data).length =
      data.count '\n' + (if data = [] ∨ data.getLast? = some '\n' then 0 else 1) ∧
    ((∀ l ∈ bufio.rawLines data, utf8Len l < 65536) →
      readLines nameList name = ((bufio.rawLines data).map bufio.dropCR, none) ∧
      (readLines nameList name).1.length =
        data.count '\n' + (if data = [] ∨ data.getLast? = some '\n' then 0 else 1)) ∧
    (∀ (pre post : List Str) (l : Str), bufio.rawLines data = pre ++ l :: post →
      (∀ x ∈ pre, utf8Len x < 65536) → 65536 ≤ utf8Len l →
      readLines nameList name = (pre.map bufio.dropCR, some GoError.tooLong)) ∧
    (∀ l : Str, bufio.dropCR (l ++ ['\r']) = l) ∧
    (∀ l : Str, l.getLast? ≠ some '\r' → bufio.dropCR l = l) := by
  have hr : readLines nameList name = bufio.scan (bufio.rawLines data) := by
    unfold readLines
    rw [hopen]
  obtain ⟨h1, h2, h3⟩ := rawLines_spec data
  rw [Join_eq_intercalate] at h2
  refine ⟨h1, h2, h3, ?_, ?_, dropCR_append_cr, dropCR_of_no_cr⟩
  · intro hshort
    have hs : readLines nameList name = ((bufio.rawLines data).map bufio.dropCR, none) := by
      rw [hr]
      exact scan_short _ hshort
    refine ⟨hs, ?_⟩
    rw [hs]
    simp only [List.length_map]
    exact h3
  · intro pre post l hsplit hpre hl
    rw [hr, hsplit]
    exact scan_long pre post l hpre hl

/-- C16, amended, at a word list with an empty line, a line ended by `\r\n` and
a final line that no `\n` ends: four lines, four entries, the second the empty
string. -/
theorem readLines_entries_witness :
    readLines [("w.txt".toList, "red\n\nred\r\nblue".toList)] "w.txt".toList =
      (["red".toList, [], "red".toList, "blue".toList], none) ∧
    (readLines [("w.txt".toList, "red\n\nred\r\nblue".toList)] "w.txt".toList).1.length =
      "red\n\nred\r\nblue".toList.count '\n' + 1 :=
  (readLines_entries [("w.txt".toList, "red\n\nred\r\nblue".toList)] "w.txt".toList
    "red\n\nred\r\nblue".toList (by decide)).2.2.2.1 (by decide)

/-- C17: the validator is sound for the generator.  With the file names of the
resource set as the pattern `data/*.txt` embeds them (ending in `.txt`, without
`/`), if `CheckType` succeeds then every resource `readData` opens for the
alias-resolved categories exists, and `GetName` does not fail with a
missing-resource error, for any separator, flag and random draw. -/
theorem CheckType_sound (nameList : EmbedFS) (types : List Str)
    (htxt : ∀ f ∈ nameList, strings.HasSuffix f.1 dataFileSuffix = true)
    (hslash : ∀ f ∈ nameList, '/' ∉ f.1)
    (hok : CheckType nameList types = none) :
    (∀ t ∈ unAlias types, ∃ data : Str,
      embed.lookup nameList (path.Join [dataDirName, t ++ dataFileSuffix]) =
        some (embed.Entry.file data)) ∧
    ∀ (separator : Str) (randomNumer : Bool) (draws : Nat → Nat) (op p : Str),
      GetName nameList types separator randomNumer draws ≠
        Outcome.error (GoError.notExist op p) := by
  have hdir : (PossibleTypes nameList).2 = none := by
    cases nameList with
    | nil =>
      unfold CheckType at hok
      rw [PossibleTypes_nil] at hok
      exact absurd hok (by simp)
    | cons f fs => rw [PossibleTypes_of_ne_nil _ (by simp)]
  have hall : ∀ t ∈ unAlias types, t ∈ (PossibleTypes nameList).1 := by
    rw [CheckType_of_ok nameList types hdir] at hok
    exact (CheckType_loop_none_iff _ _).mp hok
  have hfile : ∀ t ∈ unAlias types, ∃ data : Str,
      embed.lookup nameList (path.Join [dataDirName, t ++ dataFileSuffix]) =
        some (embed.Entry.file data) := by
    intro t ht
    have hmem := hall t ht
    rw [PossibleTypes_ok nameList hdir] at hmem
    obtain ⟨f, hf, hft⟩ := List.mem_map.mp hmem
    obtain ⟨s, hs⟩ := (HasSuffix_iff _ _).mp (htxt f hf)
    rw [hs, TrimSuffix_append] at hft
    subst hft
    have hno : '/' ∉ s := by
      intro hm
      exact hslash f hf (by rw [hs]; exact List.mem_append_left _ hm)
    rw [path_Join_data s hno]
    exact lookup_data_file_some nameList _ (List.mem_map.mpr ⟨f, hf, hs⟩)
  refine ⟨hfile, ?_⟩
  intro separator randomNumer draws op p hg
  obtain ⟨t, ht, he⟩ := GetName_error_source _ _ _ _ _ _ hg
  obtain ⟨data, hd⟩ := hfile t ht
  unfold readLines at he
  rw [hd] at he
  rcases scan_error (bufio.rawLines data) with h1 | h1
  · rw [h1] at he; exact absurd he (by simp)
  · rw [h1] at he; exact absurd he (by simp)

/-- C17 at the resource set `sampleFS` and the valid request `[colour, dog]`. -/
theorem CheckType_sound_witness :
    (∀ t ∈ unAlias ["colour".toList, "dog".toList], ∃ data : Str,
      embed.lookup sampleFS (path.Join [dataDirName, t ++ dataFileSuffix]) =
        some (embed.Entry.file data)) ∧
    ∀ (separator : Str) (randomNumer : Bool) (draws : Nat → Nat) (op p : Str),
      GetName sampleFS ["colour".toList, "dog".toList] separator randomNumer draws ≠
        Outcome.error (GoError.notExist op p) :=
  CheckType_sound sampleFS ["colour".toList, "dog".toList] (by decide) (by decide) (by decide)

/-- C18 fails as stated: both requested categories have a bundled resource and
the word list of `blank` is empty, but the resource of `big` holds a line of
65536 bytes, so `readData` fails first and `GetName` returns the error
`ErrTooLong` instead of panicking. -/
theorem GetName_empty_list_no_panic :
    embed.lookup blankBigFS (path.Join [dataDirName, "blank".toList ++ dataFileSuffix]) =
      some (embed.Entry.file []) ∧
    embed.lookup blankBigFS (path.Join [dataDirName, "big".toList ++ dataFileSuffix]) =
      some (embed.Entry.file (List.replicate 65536 'a')) ∧
    readLines blankBigFS ("blank".toList ++ dataFileSuffix) = ([], none) ∧
    GetName blankBigFS ["blank".toList, "big".toList] "-".toList false (fun _ => 0) =
      Outcome.error GoError.tooLong := by
  have hpath1 : path.Join [dataDirName, "blank".toList ++ dataFileSuffix] =
      "data/blank.txt".toList := by decide
  have hpath2 : path.Join [dataDirName, "big".toList ++ dataFileSuffix] =
      "data/big.txt".toList := by decide
  have hlook1 : embed.lookup blankBigFS "data/blank.txt".toList =
      some (embed.Entry.file []) := rfl
  have hlook2 : embed.lookup blankBigFS "data/big.txt".toList =
      some (embed.Entry.file (List.replicate 65536 'a')) := rfl
  have hread1 : readLines blankBigFS ("blank".toList ++ dataFileSuffix) = ([], none) := by
    unfold readLines
    rw [hpath1, hlook1]
    rfl
  have hread2 : readLines blankBigFS ("big".toList ++ dataFileSuffix) =
      ([], some GoError.tooLong) := by
    unfold readLines
    rw [hpath2, hlook2]
    simp only [rawLines_long_line]
    exact scan_long [] [] _ (by simp) long_line_too_long
  have hloop : readData.loop blankBigFS ["blank".toList, "big".toList] [] =
      (Permutations.set [] "blank".toList [], some GoError.tooLong) := by
    rw [readData_loop_head_ok blankBigFS "blank".toList _ [] _ hread1]
    exact readData_loop_head_error blankBigFS "big".toList [] _ _ _ hread2
  exact ⟨by rw [hpath1, hlook1], by rw [hpath2, hlook2], hread1,
    GetName_of_readData_error blankBigFS ["blank".toList, "big".toList] _ _ _ _ _ hloop⟩

/-- C18, amended: when every alias-resolved category has a bundled resource that
`readLines` loads without error, the selection `perms[t][ran(len(perms[t]))]` of
`GetName` is in bounds for every random draw (the call returns a name) exactly
when every requested word list is non-empty; with an empty word list for a
requested category `ran` is called with the bound 0, which panics, and the call
panics instead of returning. -/
theorem GetName_index_safety (nameList : EmbedFS) (types : List Str) (separator : Str)
    (randomNumer : Bool)
    (hload : ∀ t ∈ unAlias types, (readLines nameList (t ++ dataFileSuffix)).2 = none) :
    ((∀ draws : Nat → Nat,
        ∃ s : Str, GetName nameList types separator randomNumer draws = Outcome.ok s) ↔
      ∀ t ∈ unAlias types, (readLines nameList (t ++ dataFileSuffix)).1 ≠ []) ∧
    ((∃ t ∈ unAlias types, (readLines nameList (t ++ dataFileSuffix)).1 = []) →
      ∀ draws : Nat → Nat,
        GetName nameList types separator randomNumer draws = Outcome.panic) ∧
    (∀ raw : Nat, ran 0 raw = none) ∧
    (∀ max raw : Nat, 0 < max → ∃ k : Nat, ran max raw = some k ∧ k < max) := by
  refine ⟨⟨?_, ?_⟩, ?_, ?_, ?_⟩
  · intro hall t ht hempty
    obtain ⟨s, hs⟩ := hall (fun _ => 0)
    rw [GetName_panic_of_empty nameList types separator randomNumer _ hload ⟨t, ht, hempty⟩] at hs
    exact absurd hs (by simp)
  · intro hne draws
    obtain ⟨words, _, _, hg⟩ := GetName_ok_words nameList types separator randomNumer draws
      (fun t ht => ⟨hload t ht, hne t ht⟩)
    exact ⟨_, hg⟩
  · intro hempty draws
    exact GetName_panic_of_empty nameList types separator randomNumer draws hload hempty
  · intro raw
    rfl
  · intro max raw hmax
    refine ⟨raw % max, ?_, Nat.mod_lt _ hmax⟩
    simp [ran, rand.Intn, Nat.pos_iff_ne_zero.mp hmax]

/-- C18, amended, at the resource set `emptyListFS` and the request `[colour, blank]`, whose
second word list is empty. -/
theorem GetName_index_safety_witness :
    ((∀ draws : Nat → Nat,
        ∃ s : Str, GetName emptyListFS ["colour".toList, "blank".toList] "-".toList false draws =
          Outcome.ok s) ↔
      ∀ t ∈ unAlias ["colour".toList, "blank".toList],
        (readLines emptyListFS (t ++ dataFileSuffix)).1 ≠ []) ∧
    ((∃ t ∈ unAlias ["colour".toList, "blank".toList],
        (readLines emptyListFS (t ++ dataFileSuffix)).1 = []) →
      ∀ draws : Nat → Nat,
        GetName emptyListFS ["colour".toList, "blank".toList] "-".toList false draws =
          Outcome.panic) ∧
    (∀ raw : Nat, ran 0 raw = none) ∧
    (∀ max raw : Nat, 0 < max → ∃ k : Nat, ran max raw = some k ∧ k < max) :=
  GetName_index_safety emptyListFS ["colour".toList, "blank".toList] "-".toList false
    (by decide)

/-- C19: aliases are transparent.  For every category list, separator, flag,
resource set and sequence of random draws, `GetName` returns the same result for
`categories` and for `unAlias categories`, and so does `CheckType`; `dog` and
`dogs` are interchangeable. -/
theorem alias_transparent (nameList : EmbedFS) (types : List Str) (separator : Str)
    (randomNumer : Bool) (draws : Nat → Nat) :
    GetName nameList types separator randomNumer draws =
      GetName nameList (unAlias types) separator randomNumer draws ∧
    CheckType nameList types = CheckType nameList (unAlias types) ∧
    GetName nameList ["dog".toList] separator randomNumer draws =
      GetName nameList ["dogs".toList] separator randomNumer draws ∧
    CheckType nameList ["dog".toList] = CheckType nameList ["dogs".toList] := by
  refine ⟨?_, ?_, ?_, ?_⟩
  · unfold GetName
    rw [unAlias_unAlias]
  · unfold CheckType
    rw [unAlias_unAlias]
  · unfold GetName
    rfl
  · unfold CheckType
    rfl

end NameGenerator
